import Mathlib

/-!
# Verification of the distributed key-value store

Shallow embedding of the repository's core:
* `src/hashing.py` — `ConsistentHashRing` (consistent hashing with 3 virtual
  nodes per physical node, SHA-256 positions, successor lookup via
  `bisect_right`);
* `src/node/node.py` — the storage node's command processor and in-memory map;
* `src/coordinator/coordinator.py` — the registry service (node table, ring
  membership, liveness sweep).

Python dictionaries are embedded as insertion-ordered association lists with
unique keys; Python sets of node ids as duplicate-free lists.  The SHA-256
digest (an external library call, `hashlib.sha256`) is a parameter
`hash : String → Nat` of every ring operation; theorems that depend on the
practical collision-freedom of SHA-256 take an explicit injectivity-on-virtual
-keys hypothesis.  Wall-clock timestamps (`time.time()`) are integers: the
claims use only ordered comparisons of elapsed time against constant
thresholds.
-/

namespace DKVS

/-! ## Python dict as an association list -/

/-- Lookup `m[k]`, returning `none` where Python raises `KeyError`:
the first entry with key `k`. -/
def dictGet? {κ α : Type} [DecidableEq κ] (m : List (κ × α)) (k : κ) : Option α :=
  (m.find? (fun e => decide (e.1 = k))).map (fun e => e.2)

/-- Assignment `m[k] = v`: update the entry in place when `k` is present
(CPython dicts keep insertion order), otherwise append. -/
def dictSet {κ α : Type} [DecidableEq κ] (m : List (κ × α)) (k : κ) (v : α) :
    List (κ × α) :=
  if m.any (fun e => decide (e.1 = k)) then
    m.map (fun e => if e.1 = k then (k, v) else e)
  else m ++ [(k, v)]

/-- Deletion `del m[k]` (a no-op when absent; the sources only delete present keys). -/
def dictDel {κ α : Type} [DecidableEq κ] (m : List (κ × α)) (k : κ) :
    List (κ × α) :=
  m.filter (fun e => !decide (e.1 = k))

/-- The keys of the dict, in insertion order. -/
def dictKeys {κ α : Type} (m : List (κ × α)) : List κ := m.map Prod.fst

/-! ## The consistent hash ring (`src/hashing.py`) -/

/-- The constant `ConsistentHashRing.VIRTUAL_NODES = 3`. -/
def VIRTUAL_NODES : Nat := 3

/-- State of a `ConsistentHashRing`: `self.ring` (hash value → node id) and
`self.nodes` (the set of physical node ids, as a duplicate-free list).
`self.sorted_keys` is a cache that the source recomputes as
`sorted(self.ring.keys())` after every mutation, so it is embedded below as
the derived function `sorted_keys`. -/
structure Ring where
  ring : List (Nat × String)
  nodes : List String
deriving DecidableEq

/-- The state built by `ConsistentHashRing.__init__`. -/
def Ring.empty : Ring := ⟨[], []⟩

/-- The virtual key string hashed for virtual node `i` of `node_id`:
`f"{node_id}:virtual:{i}"`. -/
def vkey (node_id : String) (i : Nat) : String :=
  node_id ++ ":virtual:" ++ toString i

/-- The cache `self.sorted_keys = sorted(self.ring.keys())`. -/
def sorted_keys (r : Ring) : List Nat :=
  List.insertionSort (· ≤ ·) (dictKeys r.ring)

/-- Embedding of `ConsistentHashRing.add_node`. -/
def add_node (hash : String → Nat) (r : Ring) (node_id : String) : Ring :=
  if node_id ∈ r.nodes then r
  else
    { ring := (List.range VIRTUAL_NODES).foldl
        (fun m i => dictSet m (hash (vkey node_id i)) node_id) r.ring,
      nodes := r.nodes ++ [node_id] }

/-- Embedding of `ConsistentHashRing.remove_node`: collect the hash values owned by
`node_id`, then delete each of them. -/
def remove_node (r : Ring) (node_id : String) : Ring :=
  if node_id ∈ r.nodes then
    { ring := ((r.ring.filter (fun e => decide (e.2 = node_id))).map Prod.fst).foldl
        (fun m h => dictDel m h) r.ring,
      nodes := r.nodes.erase node_id }
  else r

/-- Python's `bisect.bisect_right` on a sorted list: the number of elements `≤ x`. -/
def bisect_right (l : List Nat) (x : Nat) : Nat :=
  (l.takeWhile (fun p => decide (p ≤ x))).length

/-- The index into `sorted_keys` at which both lookups start:
`idx = bisect_right(sorted_keys, hash(key))`, wrapped to `0` when past the
end. -/
def startIdx (hash : String → Nat) (r : Ring) (key : String) : Nat :=
  let idx := bisect_right (sorted_keys r) (hash key)
  if idx = (sorted_keys r).length then 0 else idx

/-- Indexing `self.ring[p]`.  The positions indexed always belong to the dict
(they come from `sorted_keys`), so the `""` default never materialises. -/
def slotOwner (r : Ring) (p : Nat) : String := (dictGet? r.ring p).getD ""

/-- Embedding of `ConsistentHashRing.get_node`; `none` is the
`ValueError("Ring is empty, no nodes available")` raise (the spec's
`EmptyRingError`). -/
def get_node (hash : String → Nat) (r : Ring) (key : String) : Option String :=
  if r.ring.isEmpty then none
  else some (slotOwner r ((sorted_keys r).getD (startIdx hash r key) 0))

/-- The sequence of owners visited by the collection loop of `get_nodes`:
`self.ring[self.sorted_keys[(idx + i) % len(self.sorted_keys)]]`
for `i in range(len(self.sorted_keys))`. -/
def ringTraversal (hash : String → Nat) (r : Ring) (key : String) : List String :=
  (List.range (sorted_keys r).length).map
    (fun i => slotOwner r
      ((sorted_keys r).getD ((startIdx hash r key + i) % (sorted_keys r).length) 0))

/-- The collection loop of `get_nodes`: walk the owner sequence, append each
node id not yet collected, and stop as soon as `len(nodes) == count`
(the source checks after appending; we check just before the final append,
which is the same test).  `count` is an `Int` because Python's `count` may be
negative, in which case the equality test never fires. -/
def collectDistinct (count : Int) : List String → List String → List String
  | [], nodes => nodes
  | nid :: rest, nodes =>
    if nid ∈ nodes then collectDistinct count rest nodes
    else if ((nodes.length + 1 : Nat) : Int) = count then nodes ++ [nid]
    else collectDistinct count rest (nodes ++ [nid])

/-- The same loop without the `count` break: first-occurrence deduplication. -/
def collectDistinctAll : List String → List String → List String
  | [], nodes => nodes
  | nid :: rest, nodes =>
    if nid ∈ nodes then collectDistinctAll rest nodes
    else collectDistinctAll rest (nodes ++ [nid])

/-- Embedding of `ConsistentHashRing.get_nodes`; `none` is the empty-ring `ValueError`.
The source first clamps `count` to `len(self.nodes)` when the ring has fewer
physical nodes than requested. -/
def get_nodes (hash : String → Nat) (r : Ring) (key : String) (count : Int) :
    Option (List String) :=
  if r.ring.isEmpty then none
  else
    let count := if ((r.nodes.length : Int) < count) then (r.nodes.length : Int) else count
    some (collectDistinct count (ringTraversal hash r key) [])

/-- Embedding of `ConsistentHashRing.get_all_nodes`. -/
def get_all_nodes (r : Ring) : List String :=
  List.insertionSort (· ≤ ·) r.nodes

/-! ## Python `str.split` with whitespace delimiter -/

/-- The whitespace characters CPython's `str.split()` delimits on. -/
def pyIsSpace (c : Char) : Bool :=
  c = ' ' || c = '\t' || c = '\n' || c = '\x0d' || c = '\x0b' || c = '\x0c'

/-- One pass of CPython's `str.split(maxsplit=...)`: skip runs of whitespace,
read whitespace-free tokens, and once `maxsplit` separations have been made
take the whole remainder (minus its leading whitespace) as the final token.
`tok` is the current token being read, reversed; `splitsLeft = none` means
no `maxsplit` bound. -/
def pySplitCore : List Char → Option Nat → List Char → List String
  | [], _, tok => if tok = [] then [] else [String.mk tok.reverse]
  | c :: cs, splitsLeft, tok =>
    if pyIsSpace c then
      if tok = [] then pySplitCore cs splitsLeft []
      else String.mk tok.reverse :: pySplitCore cs (splitsLeft.map (· - 1)) []
    else
      if tok = [] ∧ splitsLeft = some 0 then [String.mk (c :: cs)]
      else pySplitCore cs splitsLeft (c :: tok)

/-- Python's `s.split()` / `s.split(maxsplit=n)`. -/
def pySplit (s : String) (maxsplit : Option Nat) : List String :=
  pySplitCore s.data maxsplit []

/-- CPython's `str.split(sep)` for a one-character separator: split at every
occurrence, keeping empty pieces (so `"".split(sep) == [""]`). -/
def splitOnCharCore : List Char → Char → List Char → List String
  | [], _, tok => [String.mk tok.reverse]
  | c :: cs, sep, tok =>
    if c = sep then String.mk tok.reverse :: splitOnCharCore cs sep []
    else splitOnCharCore cs sep (c :: tok)

/-- Python's `s.split(sep)` for a one-character `sep`. -/
def pySplitOnChar (s : String) (sep : Char) : List String :=
  splitOnCharCore s.data sep []

/-! ## The storage node (`src/node/node.py`) -/

/-- Outcome of `Node._process_command` on command string `command`:
the key/value map after the command, the response string sent back, and the
list of `(replica_id, key, value)` replication pushes issued to peers
(`_replicate_to_nodes` opens one outbound connection per listed replica;
we record the requests it would issue). -/
structure NodeResult where
  data : List (String × String)
  response : String
  sent : List (String × String × String)
deriving DecidableEq

/-- Embedding of `Node._process_command` (with `_put`, `_get`, `_delete` inlined: they
lock and read/write `self.data`).  `node_id` is `self.node_id`; `data` is
`self.data` before the command.  Note the source's
`parts = command.split(maxsplit=2)` caps `len(parts)` at 3, so the
`len(parts) > 3` replication branch is kept verbatim below even though it is
unreachable. -/
def processCommand (node_id : String) (data : List (String × String))
    (command : String) : NodeResult :=
  let parts := pySplit command (some 2)
  if parts = [] then ⟨data, "ERROR Invalid command", []⟩
  else
    let cmd := parts.getD 0 ""
    if cmd = "PUT" then
      if parts.length < 3 then ⟨data, "ERROR Invalid PUT format", []⟩
      else
        let key := parts.getD 1 ""
        let value := parts.getD 2 ""
        let sent :=
          if parts.length > 3 then
            (pySplitOnChar (parts.getD 3 "") ',').map (fun rid => (rid, key, value))
          else []
        ⟨dictSet data key value, "OK", sent⟩
    else if cmd = "GET" then
      if parts.length < 2 then ⟨data, "ERROR Invalid GET format", []⟩
      else
        match dictGet? data (parts.getD 1 "") with
        | some value => ⟨data, "VALUE " ++ value, []⟩
        | none => ⟨data, "NOT_FOUND", []⟩
    else if cmd = "DELETE" then
      if parts.length < 2 then ⟨data, "ERROR Invalid DELETE format", []⟩
      else ⟨dictDel data (parts.getD 1 ""), "OK", []⟩
    else if cmd = "REPLICATE" then
      if parts.length < 3 then ⟨data, "ERROR Invalid REPLICATE format", []⟩
      else ⟨dictSet data (parts.getD 1 "") (parts.getD 2 ""), "OK", []⟩
    else if cmd = "INFO" then
      ⟨data, "OK Node " ++ node_id ++ " keys=" ++ toString data.length, []⟩
    else ⟨data, "ERROR Unknown command", []⟩

/-! ## The coordinator (`src/coordinator/coordinator.py`) -/

/-- One value of `self.nodes` in the coordinator:
`{"host": host, "port": int(port), "last_heartbeat": time.time()}`.
The port is kept as its raw token (the `int` conversion plays no role in any
modelled claim).  The float clock is modelled by integer timestamps: every
claim uses only ordered comparisons of elapsed time against the constant
thresholds, which any linearly ordered time domain embeds. -/
structure NodeInfo where
  host : String
  port : String
  last_heartbeat : Int
deriving DecidableEq

/-- Coordinator state: the hash ring and the liveness table
`node_id → NodeInfo`. -/
structure CoordState where
  ring : Ring
  nodes : List (String × NodeInfo)
deriving DecidableEq

/-- The state built by `Coordinator.__init__`. -/
def CoordState.init : CoordState := ⟨Ring.empty, []⟩

/-- Embedding of `Coordinator._register_node`, at current time `now`.  Returns the new
state and the response string. -/
def register_node (hash : String → Nat) (now : Int) (st : CoordState)
    (host port : String) : CoordState × String :=
  let node_id := host ++ ":" ++ port
  if node_id ∈ dictKeys st.nodes then
    (st, "WARNING Node " ++ node_id ++ " already registered")
  else
    ({ ring := add_node hash st.ring node_id,
       nodes := dictSet st.nodes node_id ⟨host, port, now⟩ },
     "OK Node " ++ node_id ++ " registered")

/-- Embedding of `Coordinator._unregister_node`. -/
def unregister_node (st : CoordState) (host port : String) : CoordState × String :=
  let node_id := host ++ ":" ++ port
  if node_id ∈ dictKeys st.nodes then
    ({ ring := remove_node st.ring node_id, nodes := dictDel st.nodes node_id },
     "OK Node " ++ node_id ++ " unregistered")
  else (st, "ERROR Node " ++ node_id ++ " not found")

/-- Embedding of `Coordinator._get_nodes_for_key`: `self.ring.get_nodes(key, count=3)`
inside `try`, the `ValueError` turned into `"ERROR " + str(e)`. -/
def get_nodes_for_key (hash : String → Nat) (st : CoordState) (key : String) :
    String :=
  match get_nodes hash st.ring key 3 with
  | none => "ERROR Ring is empty, no nodes available"
  | some [] => "ERROR No nodes available"
  | some (p :: rest) =>
    (rest.map (fun q => "\nREPLICA " ++ q)).foldl (· ++ ·) ("PRIMARY " ++ p)

/-- An acquisition attempt on the coordinator's `threading.Lock` by its one
sweep thread.  A primitive `threading.Lock` is NOT reentrant: `acquire`
succeeds only when the lock is free; acquiring a lock the thread already
holds blocks forever.  `none` is that permanent block (deadlock). -/
def lockAcquire (held : Bool) : Option Bool :=
  if held then none else some true

/-- Embedding of `Coordinator._unregister_node` with the mutex state made
explicit: its whole body runs under `with self.lock:`, so the call first
acquires the lock; `held` says whether the calling thread already holds it.
`none` is the deadlock — the body (including `del self.nodes[...]` and
`self.ring.remove_node`) never runs. -/
def unregister_node_locked (held : Bool) (st : CoordState)
    (host port : String) : Option (CoordState × String) :=
  (lockAcquire held).map (fun _ => unregister_node st host port)

/-- The per-dead-node calls of `Coordinator._heartbeat_loop`:
`host, port = node_id.split(':'); self._unregister_node(host, port)` for
each collected id, issued while the loop body still holds `self.lock` (the
whole body is inside `with self.lock:`), so each call re-acquires the same
non-reentrant lock.  An id that does not split into exactly two parts
raises in the source (`none` as well); registration-built ids always do. -/
def sweepRemoveDead (st : CoordState) : List String → Option CoordState
  | [] => some st
  | node_id :: rest =>
    match pySplitOnChar node_id ':' with
    | [host, port] =>
      match unregister_node_locked true st host port with
      | none => none
      | some (st2, _) => sweepRemoveDead st2 rest
    | _ => none

/-- One iteration of the body of `Coordinator._heartbeat_loop` at time
`now`: under `with self.lock:`, collect every entry with
`time.time() - last_heartbeat > 10`, then call `_unregister_node` for each
with the lock still held.  `none` is the deadlock of the sweep thread. -/
def heartbeat_sweep (now : Int) (st : CoordState) : Option CoordState :=
  let dead := (st.nodes.filter
    (fun e => decide (now - e.2.last_heartbeat > 10))).map Prod.fst
  sweepRemoveDead st dead

/-! ## Specification-side predicates and helper functions -/

/-- The dict `self.ring` has pairwise-distinct keys (true of every Python
dict; our association lists must assume it for states not built by the
operations). -/
def keysNodup (r : Ring) : Prop := (dictKeys r.ring).Nodup

instance (r : Ring) : Decidable (keysNodup r) := by
  unfold keysNodup; infer_instance

/-- Collision-freedom of the digest on the virtual keys of the node ids in
`ns` — the property of SHA-256 the spec calls "practically impossible" to
violate. -/
def DistinctVKeys (hash : String → Nat) (ns : List String) : Prop :=
  ∀ n₁ ∈ ns, ∀ n₂ ∈ ns, ∀ i < VIRTUAL_NODES, ∀ j < VIRTUAL_NODES,
    hash (vkey n₁ i) = hash (vkey n₂ j) → n₁ = n₂ ∧ i = j

instance (hash : String → Nat) (ns : List String) :
    Decidable (DistinctVKeys hash ns) := by
  unfold DistinctVKeys; infer_instance

/-- Well-formed ring state: duplicate-free keys and members, and the slot map
holds node `n` at position `p` exactly when `n` is a member and `p` is the
digest of one of its virtual keys.  This is the state every operation
sequence from the empty ring maintains (given `DistinctVKeys`). -/
def WF (hash : String → Nat) (r : Ring) : Prop :=
  keysNodup r ∧ r.nodes.Nodup ∧
  ∀ p n, dictGet? r.ring p = some n ↔
    n ∈ r.nodes ∧ ∃ i, i < VIRTUAL_NODES ∧ hash (vkey n i) = p

/-- A membership-changing call on the ring, for stating the structural
invariant over arbitrary operation sequences. -/
inductive RingOp where
  | add (node_id : String)
  | remove (node_id : String)
deriving DecidableEq

/-- Apply one membership operation. -/
def applyOp (hash : String → Nat) (r : Ring) : RingOp → Ring
  | .add n => add_node hash r n
  | .remove n => remove_node r n

/-- Run a sequence of membership operations from the empty ring. -/
def runOps (hash : String → Nat) (ops : List RingOp) : Ring :=
  ops.foldl (applyOp hash) Ring.empty

/-- The node id an operation mentions. -/
def opNode : RingOp → String
  | .add n => n
  | .remove n => n

/-- First ring position strictly greater than `x` (successor on the half-open
ring before wrap-around). -/
def firstGt (l : List Nat) (x : Nat) : Option Nat :=
  (l.dropWhile (fun p => decide (p ≤ x))).head?

/-- The position `get_node`-style lookup resolves to: the first position
greater than `x`, wrapping to the least position. -/
def succSlot (l : List Nat) (x : Nat) : Option Nat :=
  (firstGt l x).orElse (fun _ => l.head?)

/-- A wire token: nonempty and free of `str.split()` whitespace. -/
def isToken (s : String) : Prop :=
  s ≠ "" ∧ ∀ c ∈ s.data, pyIsSpace c = false

/-! ## Concrete fixtures used by witnesses and counterexamples -/

/-- A concrete stand-in digest for witnesses: collision-free on the virtual
keys of the node ids the fixtures use. -/
def hashW : String → Nat := fun s =>
  if s = "a:virtual:0" then 10 else if s = "a:virtual:1" then 20
  else if s = "a:virtual:2" then 30 else if s = "b:virtual:0" then 40
  else if s = "b:virtual:1" then 50 else if s = "b:virtual:2" then 60
  else if s = "127.0.0.1:5001:virtual:0" then 100
  else if s = "127.0.0.1:5001:virtual:1" then 110
  else if s = "127.0.0.1:5001:virtual:2" then 120
  else 0

/-- A one-member ring. -/
def ringA : Ring := add_node hashW Ring.empty "a"

/-- A two-member ring. -/
def ringW : Ring := add_node hashW ringA "b"

/-- A coordinator that registered `127.0.0.1:5001` at time 0. -/
def stW : CoordState := (register_node hashW 0 CoordState.init "127.0.0.1" "5001").1

/-! ## Association-list (Python dict) lemmas -/

theorem dictGet?_cons {κ α : Type} [DecidableEq κ] (e : κ × α) (m : List (κ × α))
    (k : κ) : dictGet? (e :: m) k = if e.1 = k then some e.2 else dictGet? m k := by
  by_cases h : e.1 = k <;> simp [dictGet?, List.find?_cons, h]

theorem dictGet?_eq_none_of_not_mem {κ α : Type} [DecidableEq κ]
    {m : List (κ × α)} {k : κ} (h : k ∉ dictKeys m) : dictGet? m k = none := by
  induction m with
  | nil => rfl
  | cons e tl ih =>
    rw [dictGet?_cons]
    have h1 : ¬ e.1 = k := fun he => h (by simp [dictKeys, he])
    rw [if_neg h1]
    exact ih (fun hk => h (by simp [dictKeys] at hk ⊢; exact Or.inr hk))

theorem mem_dictKeys_of_dictGet?_eq_some {κ α : Type} [DecidableEq κ]
    {m : List (κ × α)} {k : κ} {v : α} (h : dictGet? m k = some v) :
    k ∈ dictKeys m := by
  by_contra hk
  rw [dictGet?_eq_none_of_not_mem hk] at h
  exact Option.noConfusion h

theorem mem_of_dictGet?_eq_some {κ α : Type} [DecidableEq κ]
    {m : List (κ × α)} {k : κ} {v : α} (h : dictGet? m k = some v) : (k, v) ∈ m := by
  induction m with
  | nil => exact Option.noConfusion h
  | cons e tl ih =>
    rw [dictGet?_cons] at h
    by_cases h1 : e.1 = k
    · rw [if_pos h1] at h
      have : e = (k, v) := by
        cases e; cases h1; cases Option.some.inj h; rfl
      simp [this]
    · exact List.mem_cons_of_mem _ (ih (by rwa [if_neg h1] at h))

theorem dictGet?_eq_some_of_mem {κ α : Type} [DecidableEq κ]
    {m : List (κ × α)} {e : κ × α} (hnd : (dictKeys m).Nodup) (he : e ∈ m) :
    dictGet? m e.1 = some e.2 := by
  induction m with
  | nil => cases he
  | cons f tl ih =>
    have hnd' : (dictKeys tl).Nodup := (List.nodup_cons.mp hnd).2
    rcases List.mem_cons.mp he with rfl | htl
    · rw [dictGet?_cons, if_pos rfl]
    · rw [dictGet?_cons]
      by_cases h1 : f.1 = e.1
      · exfalso
        have : e.1 ∈ dictKeys tl := List.mem_map_of_mem Prod.fst htl
        exact (List.nodup_cons.mp hnd).1 (h1 ▸ this)
      · rw [if_neg h1]; exact ih hnd' htl

theorem dictGet?_isSome_of_mem_dictKeys {κ α : Type} [DecidableEq κ]
    {m : List (κ × α)} {k : κ} (h : k ∈ dictKeys m) : (dictGet? m k).isSome := by
  induction m with
  | nil => cases h
  | cons e tl ih =>
    rw [dictGet?_cons]
    by_cases h1 : e.1 = k
    · rw [if_pos h1]; rfl
    · rw [if_neg h1]
      apply ih
      rcases List.mem_map.mp h with ⟨f, hf, rfl⟩
      rcases List.mem_cons.mp hf with rfl | htl
      · exact absurd rfl h1
      · exact List.mem_map_of_mem Prod.fst htl

theorem mem_dictKeys_iff_any {κ α : Type} [DecidableEq κ] (m : List (κ × α))
    (k : κ) : m.any (fun e => decide (e.1 = k)) = true ↔ k ∈ dictKeys m := by
  simp [List.any_eq_true, dictKeys, List.mem_map]

theorem dictGet?_map_update_ne {κ α : Type} [DecidableEq κ]
    (m : List (κ × α)) (k k' : κ) (v : α) (hne : k' ≠ k) :
    dictGet? (m.map (fun e => if e.1 = k then (k, v) else e)) k' = dictGet? m k' := by
  induction m with
  | nil => rfl
  | cons e tl ih =>
    rw [List.map_cons]
    by_cases h : e.1 = k
    · rw [if_pos h, dictGet?_cons, dictGet?_cons]
      rw [if_neg (fun hk => hne hk.symm), if_neg (fun hk => hne (h ▸ hk).symm)]
      exact ih
    · rw [if_neg h, dictGet?_cons, dictGet?_cons]
      by_cases h2 : e.1 = k' <;> simp [h2, ih]

theorem dictGet?_map_update_self {κ α : Type} [DecidableEq κ]
    (m : List (κ × α)) (k : κ) (v : α) (hk : k ∈ dictKeys m) :
    dictGet? (m.map (fun e => if e.1 = k then (k, v) else e)) k = some v := by
  induction m with
  | nil => cases hk
  | cons e tl ih =>
    rw [List.map_cons]
    by_cases h : e.1 = k
    · rw [if_pos h, dictGet?_cons, if_pos rfl]
    · have hk' : k ∈ dictKeys tl := by
        rcases List.mem_map.mp hk with ⟨f, hf, rfl⟩
        rcases List.mem_cons.mp hf with rfl | htl
        · exact absurd rfl h
        · exact List.mem_map_of_mem Prod.fst htl
      rw [if_neg h, dictGet?_cons, if_neg h]
      exact ih hk'

theorem dictGet?_dictSet {κ α : Type} [DecidableEq κ] (m : List (κ × α))
    (k k' : κ) (v : α) :
    dictGet? (dictSet m k v) k' = if k' = k then some v else dictGet? m k' := by
  unfold dictSet
  by_cases hp : k ∈ dictKeys m
  · rw [if_pos ((mem_dictKeys_iff_any m k).mpr hp)]
    by_cases h : k' = k
    · subst h; rw [if_pos rfl]; exact dictGet?_map_update_self m k' v hp
    · rw [if_neg h]; exact dictGet?_map_update_ne m k k' v h
  · rw [if_neg (fun ha => hp ((mem_dictKeys_iff_any m k).mp ha))]
    induction m with
    | nil =>
      by_cases h : k' = k
      · subst h; simp [dictGet?_cons, dictGet?]
      · simp [dictGet?_cons, dictGet?, h, Ne.symm h]
    | cons e tl ih =>
      have hp' : k ∉ dictKeys tl := fun hk => hp (by simp [dictKeys] at hk ⊢; exact Or.inr hk)
      have hek : ¬ e.1 = k := fun hk => hp (by simp [dictKeys, hk])
      rw [List.cons_append, dictGet?_cons, dictGet?_cons, ih hp']
      by_cases h2 : e.1 = k'
      · have h3 : ¬ k' = k := fun he => hek (h2.trans he)
        rw [if_pos h2, if_neg h3, if_pos h2]
      · rw [if_neg h2, if_neg h2]

theorem dictKeys_dictSet {κ α : Type} [DecidableEq κ] (m : List (κ × α))
    (k : κ) (v : α) :
    dictKeys (dictSet m k v) =
      if k ∈ dictKeys m then dictKeys m else dictKeys m ++ [k] := by
  unfold dictSet
  by_cases hp : k ∈ dictKeys m
  · rw [if_pos ((mem_dictKeys_iff_any m k).mpr hp), if_pos hp]
    unfold dictKeys
    rw [List.map_map]
    apply List.map_congr_left
    intro e _
    by_cases h : e.1 = k <;> simp [h]
  · rw [if_neg (fun ha => hp ((mem_dictKeys_iff_any m k).mp ha)), if_neg hp]
    simp [dictKeys]

theorem nodup_dictKeys_dictSet {κ α : Type} [DecidableEq κ]
    {m : List (κ × α)} (k : κ) (v : α) (h : (dictKeys m).Nodup) :
    (dictKeys (dictSet m k v)).Nodup := by
  rw [dictKeys_dictSet]
  by_cases hp : k ∈ dictKeys m
  · rwa [if_pos hp]
  · rw [if_neg hp]
    simpa [List.nodup_append] using ⟨h, hp⟩

theorem dictKeys_filter_of_pointwise {κ α : Type} (m : List (κ × α))
    (q : κ × α → Bool) (Q : κ → Bool) (h : ∀ e ∈ m, q e = Q e.1) :
    dictKeys (m.filter q) = (dictKeys m).filter Q := by
  induction m with
  | nil => rfl
  | cons e tl ih =>
    have he : q e = Q e.1 := h e (List.mem_cons_self e tl)
    have htl : ∀ f ∈ tl, q f = Q f.1 := fun f hf => h f (List.mem_cons_of_mem e hf)
    rw [List.filter_cons]
    by_cases hq : q e = true
    · rw [if_pos hq]
      have : Q e.1 = true := he ▸ hq
      simp only [dictKeys, List.map_cons, List.filter_cons, this, if_pos]
      rw [← dictKeys, ← dictKeys, ih htl]
    · rw [if_neg hq]
      have : ¬ Q e.1 = true := fun hQ => hq (he ▸ hQ)
      simp only [dictKeys, List.map_cons, List.filter_cons]
      rw [if_neg this, ← dictKeys, ← dictKeys, ih htl]

theorem dictGet?_dictDel {κ α : Type} [DecidableEq κ] (m : List (κ × α))
    (k k' : κ) :
    dictGet? (dictDel m k) k' = if k' = k then none else dictGet? m k' := by
  induction m with
  | nil => by_cases h : k' = k <;> simp [dictDel, dictGet?, h]
  | cons e tl ih =>
    unfold dictDel at ih ⊢
    rw [List.filter_cons]
    by_cases h : e.1 = k
    · rw [if_neg (by simp [h]), ih, dictGet?_cons]
      by_cases h2 : k' = k
      · rw [if_pos h2, if_pos h2]
      · rw [if_neg h2, if_neg h2, if_neg (h ▸ fun hk => h2 (hk ▸ rfl))]
    · rw [if_pos (by simp [h]), dictGet?_cons, dictGet?_cons, ih]
      by_cases h2 : e.1 = k'
      · have : ¬ k' = k := fun he => h (h2.trans he)
        rw [if_pos h2, if_pos h2, if_neg this]
      · rw [if_neg h2, if_neg h2]

theorem dictKeys_dictDel {κ α : Type} [DecidableEq κ] (m : List (κ × α)) (k : κ) :
    dictKeys (dictDel m k) = (dictKeys m).filter (fun a => !decide (a = k)) :=
  dictKeys_filter_of_pointwise m _ _ (fun _ _ => rfl)

theorem nodup_dictKeys_dictDel {κ α : Type} [DecidableEq κ]
    {m : List (κ × α)} (k : κ) (h : (dictKeys m).Nodup) :
    (dictKeys (dictDel m k)).Nodup := by
  rw [dictKeys_dictDel]; exact h.filter _

/-! ## `sorted_keys` and the successor slot -/

theorem sorted_keys_sorted (r : Ring) : List.Sorted (· ≤ ·) (sorted_keys r) :=
  List.sorted_insertionSort _ _

theorem sorted_keys_perm (r : Ring) :
    List.Perm (sorted_keys r) (dictKeys r.ring) :=
  List.perm_insertionSort _ _

theorem mem_sorted_keys {r : Ring} {p : Nat} :
    p ∈ sorted_keys r ↔ p ∈ dictKeys r.ring :=
  (sorted_keys_perm r).mem_iff

theorem sorted_keys_ne_nil {r : Ring} (h : r.ring ≠ []) : sorted_keys r ≠ [] := by
  intro hs
  apply h
  have hlen : (dictKeys r.ring).length = 0 := by
    rw [← (sorted_keys_perm r).length_eq, hs]; rfl
  have : r.ring.length = 0 := by simpa [dictKeys] using hlen
  exact List.length_eq_zero.mp this

theorem dropWhile_append_of_all {α : Type} (q : α → Bool) (u v : List α)
    (h : ∀ a ∈ u, q a = true) : (u ++ v).dropWhile q = v.dropWhile q := by
  induction u with
  | nil => rfl
  | cons a u ih =>
    rw [List.cons_append, List.dropWhile_cons, if_pos (h a (List.mem_cons_self a u))]
    exact ih (fun b hb => h b (List.mem_cons_of_mem a hb))

theorem head?_dropWhile_false {α : Type} (q : α → Bool) (l : List α) (a : α)
    (h : (l.dropWhile q).head? = some a) : q a = false := by
  induction l with
  | nil => cases h
  | cons b tl ih =>
    rw [List.dropWhile_cons] at h
    by_cases hb : q b = true
    · rw [if_pos hb] at h; exact ih h
    · rw [if_neg hb] at h
      have : b = a := by simpa using h
      subst this
      exact Bool.eq_false_iff.mpr hb

theorem succSlot_isSome {l : List Nat} (hne : l ≠ []) (x : Nat) :
    ∃ p, succSlot l x = some p ∧ p ∈ l := by
  unfold succSlot firstGt
  cases hd : (l.dropWhile (fun p => decide (p ≤ x))).head? with
  | some p =>
    refine ⟨p, by simp [Option.orElse], ?_⟩
    have hmem : p ∈ l.dropWhile (fun p => decide (p ≤ x)) := by
      cases hl : l.dropWhile (fun p => decide (p ≤ x)) with
      | nil => rw [hl] at hd; cases hd
      | cons z zs =>
        rw [hl] at hd
        have : z = p := by simpa using hd
        simp [this]
    exact (List.dropWhile_sublist _).mem hmem
  | none =>
    cases hl : l with
    | nil => exact absurd hl hne
    | cons a tl =>
      refine ⟨a, ?_, by simp⟩
      subst hl
      simp [Option.orElse, hd]

theorem succSlot_filter {l : List Nat} {x p : Nat} (P : Nat → Bool)
    (hp : succSlot l x = some p) (hP : P p = true) :
    succSlot (l.filter P) x = some p := by
  unfold succSlot firstGt at hp ⊢
  set q : Nat → Bool := fun a => decide (a ≤ x) with hq
  cases hd : (l.dropWhile q).head? with
  | some z =>
    have hz : z = p := by
      rw [hd] at hp; simpa [Option.orElse] using hp
    subst hz
    have hql : ∀ a ∈ l.takeWhile q, q a = true := fun a ha =>
      List.mem_takeWhile_imp ha
    obtain ⟨rest, hrest⟩ : ∃ rest, l.dropWhile q = z :: rest := by
      cases hl : l.dropWhile q with
      | nil => rw [hl] at hd; cases hd
      | cons w ws =>
        rw [hl] at hd
        have : w = z := by simpa using hd
        exact ⟨ws, by rw [this]⟩
    have hsplit : l = l.takeWhile q ++ (z :: rest) := by
      rw [← hrest, List.takeWhile_append_dropWhile]
    have hqz : q z = false := head?_dropWhile_false q l z hd
    rw [hsplit, List.filter_append, List.filter_cons, if_pos hP,
      dropWhile_append_of_all q _ _
        (fun a ha => hql a (List.mem_of_mem_filter ha)),
      List.dropWhile_cons, if_neg (by simp [hqz])]
    simp [Option.orElse]
  | none =>
    have hall : ∀ a ∈ l, q a = true := by
      rw [List.head?_eq_none_iff] at hd
      exact fun a ha => List.dropWhile_eq_nil_iff.mp hd a ha
    have hhead : l.head? = some p := by
      rw [hd] at hp; simpa [Option.orElse] using hp
    obtain ⟨tl, htl⟩ : ∃ tl, l = p :: tl := by
      cases hl : l with
      | nil => rw [hl] at hhead; cases hhead
      | cons a tl =>
        rw [hl] at hhead
        have : a = p := by simpa using hhead
        exact ⟨tl, by rw [this]⟩
    have hdrop2 : (l.filter P).dropWhile q = [] :=
      List.dropWhile_eq_nil_iff.mpr
        (fun a ha => hall a (List.mem_of_mem_filter ha))
    rw [hdrop2]
    subst htl
    rw [List.filter_cons, if_pos hP]
    simp [Option.orElse]

theorem getD_bisect_eq_succSlot (l : List Nat) (x : Nat) (hne : l ≠ []) :
    some (l.getD (if bisect_right l x = l.length then 0 else bisect_right l x) 0)
      = succSlot l x := by
  unfold bisect_right succSlot firstGt
  set q : Nat → Bool := fun p => decide (p ≤ x) with hq
  cases hd : l.dropWhile q with
  | nil =>
    have htake : l.takeWhile q = l := by
      conv_rhs => rw [← List.takeWhile_append_dropWhile q l]
      rw [hd, List.append_nil]
    rw [htake, if_pos rfl]
    cases hl : l with
    | nil => exact absurd hl hne
    | cons a tl => simp [Option.orElse]
  | cons z zs =>
    have hsplit : l = l.takeWhile q ++ (z :: zs) := by
      rw [← hd, List.takeWhile_append_dropWhile]
    have hlen : (l.takeWhile q).length < l.length := by
      conv_rhs => rw [hsplit]
      rw [List.length_append]
      simp
    rw [if_neg (Nat.ne_of_lt hlen)]
    have hgd : l.getD (l.takeWhile q).length 0 = z := by
      set t := l.takeWhile q with ht
      rw [List.getD_eq_getElem?_getD, hsplit,
        List.getElem?_append_right (Nat.le_refl _)]
      simp
    rw [hgd]
    simp [Option.orElse]

theorem startIdx_lt (hash : String → Nat) {r : Ring} (key : String)
    (h : r.ring ≠ []) : startIdx hash r key < (sorted_keys r).length := by
  unfold startIdx
  have hne := sorted_keys_ne_nil h
  by_cases he : bisect_right (sorted_keys r) (hash key) = (sorted_keys r).length
  · rw [if_pos he]
    exact List.length_pos.mpr hne
  · rw [if_neg he]
    exact Nat.lt_of_le_of_ne
      (by simpa [bisect_right] using (List.takeWhile_sublist _).length_le) he

theorem get_node_eq_succSlot (hash : String → Nat) (r : Ring) (key : String)
    (h : r.ring ≠ []) :
    get_node hash r key
      = (succSlot (sorted_keys r) (hash key)).bind (dictGet? r.ring) := by
  have hne := sorted_keys_ne_nil h
  have hbr := getD_bisect_eq_succSlot (sorted_keys r) (hash key) hne
  have hstart : startIdx hash r key =
      (if bisect_right (sorted_keys r) (hash key) = (sorted_keys r).length then 0
       else bisect_right (sorted_keys r) (hash key)) := rfl
  rw [← hstart] at hbr
  unfold get_node
  rw [if_neg (by simpa [List.isEmpty_iff] using h), ← hbr, Option.some_bind]
  have hidx := startIdx_lt hash key h
  have hmem : (sorted_keys r).getD (startIdx hash r key) 0 ∈ sorted_keys r := by
    rw [List.getD_eq_getElem?_getD, List.getElem?_eq_getElem hidx]
    exact List.getElem_mem _
  obtain ⟨v, hv⟩ := Option.isSome_iff_exists.mp
    (dictGet?_isSome_of_mem_dictKeys (mem_sorted_keys.mp hmem))
  rw [hv]
  simp only [slotOwner]
  rw [hv]
  rfl

/-! ## Effect of `add_node` and `remove_node` on the slot map -/

theorem eq_of_mem_same_key {κ α : Type} [DecidableEq κ] {m : List (κ × α)}
    (hnd : (dictKeys m).Nodup) {e f : κ × α} (he : e ∈ m) (hf : f ∈ m)
    (hk : e.1 = f.1) : e = f := by
  have h1 := dictGet?_eq_some_of_mem hnd he
  have h2 := dictGet?_eq_some_of_mem hnd hf
  rw [hk, h2] at h1
  cases e; cases f
  cases hk; cases Option.some.inj h1; rfl

theorem foldl_dictDel_eq_filter {κ α : Type} [DecidableEq κ] (ks : List κ)
    (m : List (κ × α)) :
    ks.foldl (fun m h => dictDel m h) m
      = m.filter (fun e => decide (e.1 ∉ ks)) := by
  induction ks generalizing m with
  | nil => simp
  | cons k t ih =>
    rw [List.foldl_cons, ih]
    unfold dictDel
    rw [List.filter_filter]
    apply List.filter_congr
    intro e _
    by_cases h1 : e.1 = k <;> by_cases h2 : e.1 ∈ t <;> simp [h1, h2]

theorem remove_node_ring_eq {r : Ring} {B : String} (hnd : keysNodup r)
    (hB : B ∈ r.nodes) :
    (remove_node r B).ring = r.ring.filter (fun e => !decide (e.2 = B)) := by
  unfold remove_node
  rw [if_pos hB]
  simp only
  rw [foldl_dictDel_eq_filter]
  apply List.filter_congr
  intro e he
  by_cases h2 : e.2 = B
  · have hmem : e.1 ∈ (r.ring.filter (fun f => decide (f.2 = B))).map Prod.fst :=
      List.mem_map_of_mem Prod.fst (List.mem_filter.mpr ⟨he, by simp [h2]⟩)
    simp [h2, hmem]
  · have hmem : e.1 ∉ (r.ring.filter (fun f => decide (f.2 = B))).map Prod.fst := by
      intro hmem
      rcases List.mem_map.mp hmem with ⟨f, hf, hfe⟩
      rcases List.mem_filter.mp hf with ⟨hfr, hfB⟩
      have : f = e := eq_of_mem_same_key hnd hfr he hfe
      exact h2 (this ▸ (by simpa using hfB))
    simp [h2, hmem]

theorem remove_node_nodes_eq {r : Ring} {B : String} (hB : B ∈ r.nodes) :
    (remove_node r B).nodes = r.nodes.erase B := by
  unfold remove_node
  rw [if_pos hB]

theorem dictGet?_filter_val_ne {κ α : Type} [DecidableEq κ] [DecidableEq α]
    {m : List (κ × α)} (hnd : (dictKeys m).Nodup) (B : α) (p : κ) :
    dictGet? (m.filter (fun e => !decide (e.2 = B))) p =
      if dictGet? m p = some B then none else dictGet? m p := by
  induction m with
  | nil => simp [dictGet?]
  | cons e tl ih =>
    have hnd2 : (dictKeys (e :: tl)).Nodup = (e.1 :: dictKeys tl).Nodup := by
      simp [dictKeys]
    have hcons := List.nodup_cons.mp (hnd2 ▸ hnd)
    rw [List.filter_cons]
    by_cases hv : e.2 = B
    · rw [if_neg (by simp [hv]), ih hcons.2, dictGet?_cons]
      by_cases hk : e.1 = p
      · rw [if_pos hk]
        have hp : p ∉ dictKeys tl := hk ▸ hcons.1
        rw [dictGet?_eq_none_of_not_mem hp]
        simp [hv]
      · rw [if_neg hk]
    · rw [if_pos (by simp [hv]), dictGet?_cons, dictGet?_cons, ih hcons.2]
      by_cases hk : e.1 = p
      · rw [if_pos hk, if_pos hk, if_neg (by simp [hv])]
      · rw [if_neg hk, if_neg hk]

theorem dictGet?_foldl_dictSet {κ α : Type} [DecidableEq κ] (hs : List κ)
    (B : α) (m : List (κ × α)) (p : κ) :
    dictGet? (hs.foldl (fun m h => dictSet m h B) m) p =
      if p ∈ hs then some B else dictGet? m p := by
  induction hs generalizing m with
  | nil => simp
  | cons k t ih =>
    rw [List.foldl_cons, ih, dictGet?_dictSet]
    by_cases h1 : p ∈ t
    · simp [h1]
    · by_cases h2 : p = k <;> simp [h1, h2]

theorem mem_dictKeys_dictSet_iff {κ α : Type} [DecidableEq κ]
    (m : List (κ × α)) (k p : κ) (v : α) :
    p ∈ dictKeys (dictSet m k v) ↔ p = k ∨ p ∈ dictKeys m := by
  rw [dictKeys_dictSet]
  by_cases hk : k ∈ dictKeys m
  · rw [if_pos hk]
    constructor
    · exact Or.inr
    · rintro (rfl | h) <;> [exact hk; exact h]
  · rw [if_neg hk]
    simp [or_comm]

theorem mem_dictKeys_foldl_dictSet_iff {κ α : Type} [DecidableEq κ]
    (hs : List κ) (B : α) (m : List (κ × α)) (p : κ) :
    p ∈ dictKeys (hs.foldl (fun m h => dictSet m h B) m) ↔
      p ∈ hs ∨ p ∈ dictKeys m := by
  induction hs generalizing m with
  | nil => simp
  | cons k t ih =>
    rw [List.foldl_cons, ih, mem_dictKeys_dictSet_iff]
    simp [or_assoc, or_comm, or_left_comm]

theorem nodup_dictKeys_foldl_dictSet {κ α : Type} [DecidableEq κ]
    (hs : List κ) (B : α) (m : List (κ × α)) (h : (dictKeys m).Nodup) :
    (dictKeys (hs.foldl (fun m h => dictSet m h B) m)).Nodup := by
  induction hs generalizing m with
  | nil => exact h
  | cons k t ih =>
    rw [List.foldl_cons]
    exact ih _ (nodup_dictKeys_dictSet k B h)

theorem add_node_ring_eq (hash : String → Nat) {r : Ring} {B : String}
    (hB : B ∉ r.nodes) :
    (add_node hash r B).ring =
      ((List.range VIRTUAL_NODES).map (fun i => hash (vkey B i))).foldl
        (fun m h => dictSet m h B) r.ring := by
  unfold add_node
  rw [if_neg hB]
  simp [List.foldl_map]

theorem add_node_nodes_eq (hash : String → Nat) {r : Ring} {B : String}
    (hB : B ∉ r.nodes) :
    (add_node hash r B).nodes = r.nodes ++ [B] := by
  unfold add_node
  rw [if_neg hB]

/-! ## Effect of the two operations on `sorted_keys` -/

theorem sorted_keys_filter_eq {r r2 : Ring} (P : Nat → Bool)
    (h : List.Perm (dictKeys r2.ring) ((dictKeys r.ring).filter P)) :
    sorted_keys r2 = (sorted_keys r).filter P := by
  apply List.eq_of_perm_of_sorted ?_ (sorted_keys_sorted r2)
    ((sorted_keys_sorted r).filter P)
  exact (sorted_keys_perm r2).trans
    (h.trans ((sorted_keys_perm r).filter P).symm)

theorem sorted_keys_remove_eq {r : Ring} {B : String} (hnd : keysNodup r)
    (hB : B ∈ r.nodes) :
    sorted_keys (remove_node r B) =
      (sorted_keys r).filter (fun p => !decide (dictGet? r.ring p = some B)) := by
  apply sorted_keys_filter_eq
  rw [remove_node_ring_eq hnd hB,
    dictKeys_filter_of_pointwise r.ring _
      (fun p => !decide (dictGet? r.ring p = some B)) ?_]
  intro e he
  simp only
  rw [dictGet?_eq_some_of_mem hnd he]
  simp

theorem sorted_keys_add_eq (hash : String → Nat) {r : Ring} {B : String}
    (hnd : keysNodup r) (hB : B ∉ r.nodes) :
    sorted_keys r =
      (sorted_keys (add_node hash r B)).filter
        (fun p => decide (p ∈ dictKeys r.ring)) := by
  have hsub : ∀ p, p ∈ dictKeys r.ring → p ∈ dictKeys (add_node hash r B).ring := by
    intro p hp
    rw [add_node_ring_eq hash hB, mem_dictKeys_foldl_dictSet_iff]
    exact Or.inr hp
  have hnd2 : (dictKeys (add_node hash r B).ring).Nodup := by
    rw [add_node_ring_eq hash hB]
    exact nodup_dictKeys_foldl_dictSet _ _ _ hnd
  apply List.eq_of_perm_of_sorted ?_ (sorted_keys_sorted r)
    ((sorted_keys_sorted (add_node hash r B)).filter _)
  apply (sorted_keys_perm r).trans
  apply List.Perm.symm
  apply ((sorted_keys_perm (add_node hash r B)).filter _).trans
  apply (List.perm_ext_iff_of_nodup (hnd2.filter _) hnd).mpr
  intro p
  rw [List.mem_filter]
  constructor
  · rintro ⟨_, hp⟩
    simpa using hp
  · intro hp
    exact ⟨hsub p hp, by simpa using hp⟩

/-- C2: Minimal disruption.  For every ring state with duplicate-free dict
keys (true of every Python dict), every digest function, every node id `B`
and every key: if removing `B` changes `get_node(key)`, the key's lookup
previously resolved to a position owned by `B` (`get_node` previously
returned `B`); and if adding `B` changes `get_node(key)`, the key's lookup
afterwards resolves to one of `B`'s virtual positions (`get_node` afterwards
returns `B`).  Every other key's owner is identical before and after. -/
theorem C2_minimal_disruption (hash : String → Nat) (r : Ring) (B key : String)
    (hnd : keysNodup r) :
    (get_node hash (remove_node r B) key ≠ get_node hash r key →
      get_node hash r key = some B) ∧
    (get_node hash (add_node hash r B) key ≠ get_node hash r key →
      get_node hash (add_node hash r B) key = some B) := by
  constructor
  · intro hchg
    by_contra hnB
    apply hchg
    by_cases hB : B ∈ r.nodes
    · by_cases hring : r.ring = []
      · have h2 : (remove_node r B).ring = [] := by
          rw [remove_node_ring_eq hnd hB, hring]; rfl
        unfold get_node
        rw [if_pos (by simp [h2]), if_pos (by simp [hring])]
      · have hgb := get_node_eq_succSlot hash r key hring
        obtain ⟨p, hp, hpmem⟩ :=
          succSlot_isSome (sorted_keys_ne_nil hring) (hash key)
        rw [hgb, hp, Option.some_bind] at hnB
        obtain ⟨v, hv⟩ := Option.isSome_iff_exists.mp
          (dictGet?_isSome_of_mem_dictKeys (mem_sorted_keys.mp hpmem))
        have hvB : v ≠ B := fun he => hnB (by rw [hv, he])
        have hPp : (fun q => !decide (dictGet? r.ring q = some B)) p = true := by
          simp only [Bool.not_eq_true']
          rw [hv]
          simp [hvB]
        have hss2 : succSlot (sorted_keys (remove_node r B)) (hash key)
            = some p := by
          rw [sorted_keys_remove_eq hnd hB]
          exact succSlot_filter _ hp hPp
        have hpv : (p, v) ∈ r.ring := mem_of_dictGet?_eq_some hv
        have hringM : (remove_node r B).ring ≠ [] := by
          rw [remove_node_ring_eq hnd hB]
          intro hnil
          have hmem2 : (p, v) ∈ r.ring.filter (fun e => !decide (e.2 = B)) :=
            List.mem_filter.mpr ⟨hpv, by simp [hvB]⟩
          rw [hnil] at hmem2
          cases hmem2
        rw [get_node_eq_succSlot hash _ key hringM, hss2, Option.some_bind,
          hgb, hp, Option.some_bind, remove_node_ring_eq hnd hB,
          dictGet?_filter_val_ne hnd B p,
          if_neg (by rw [hv]; exact fun he => hvB (Option.some.inj he))]
    · unfold remove_node
      rw [if_neg hB]
  · intro hchg
    by_contra hnB
    apply hchg
    by_cases hB : B ∈ r.nodes
    · unfold add_node
      rw [if_pos hB]
    · have hkm : hash (vkey B 0) ∈ dictKeys (add_node hash r B).ring := by
        rw [add_node_ring_eq hash hB, mem_dictKeys_foldl_dictSet_iff]
        exact Or.inl (List.mem_map_of_mem _ (by simp [VIRTUAL_NODES]))
      have hring2 : (add_node hash r B).ring ≠ [] := by
        intro hnil
        rw [hnil] at hkm
        cases hkm
      have hg2 := get_node_eq_succSlot hash (add_node hash r B) key hring2
      obtain ⟨p, hp, hpmem⟩ :=
        succSlot_isSome (sorted_keys_ne_nil hring2) (hash key)
      rw [hg2, hp, Option.some_bind] at hnB ⊢
      obtain ⟨v, hv⟩ := Option.isSome_iff_exists.mp
        (dictGet?_isSome_of_mem_dictKeys (mem_sorted_keys.mp hpmem))
      have hvB : v ≠ B := fun he => hnB (by rw [hv, he])
      have hlook : dictGet? (add_node hash r B).ring p =
          if p ∈ (List.range VIRTUAL_NODES).map (fun i => hash (vkey B i))
          then some B else dictGet? r.ring p := by
        rw [add_node_ring_eq hash hB, dictGet?_foldl_dictSet]
      have hpB : p ∉ (List.range VIRTUAL_NODES).map (fun i => hash (vkey B i)) := by
        intro hmem
        rw [hlook, if_pos hmem] at hv
        exact hvB (Option.some.inj hv).symm
      rw [hlook, if_neg hpB] at hv
      have hpk : p ∈ dictKeys r.ring := mem_dictKeys_of_dictGet?_eq_some hv
      have hringN : r.ring ≠ [] := by
        intro hnil
        rw [hnil] at hpk
        cases hpk
      have hss1 : succSlot (sorted_keys r) (hash key) = some p := by
        rw [sorted_keys_add_eq hash hnd hB]
        exact succSlot_filter _ hp (by simpa using hpk)
      rw [get_node_eq_succSlot hash r key hringN, hss1, Option.some_bind,
        hlook, if_neg hpB]

/-- Witness for C2 at a concrete ring, node and key. -/
theorem C2_minimal_disruption_witness :
    keysNodup ringA ∧
    ((get_node hashW (remove_node ringA "b") "k" ≠ get_node hashW ringA "k" →
      get_node hashW ringA "k" = some "b") ∧
    (get_node hashW (add_node hashW ringA "b") "k" ≠ get_node hashW ringA "k" →
      get_node hashW (add_node hashW ringA "b") "k" = some "b")) :=
  ⟨by decide, C2_minimal_disruption hashW ringA "b" "k" (by decide)⟩

/-! ## Idempotence of membership operations -/

theorem add_node_of_mem (hash : String → Nat) {r : Ring} {x : String}
    (hx : x ∈ r.nodes) : add_node hash r x = r := by
  unfold add_node
  rw [if_pos hx]

theorem remove_node_of_not_mem {r : Ring} {x : String}
    (hx : x ∉ r.nodes) : remove_node r x = r := by
  unfold remove_node
  rw [if_neg hx]

theorem mem_add_node_nodes (hash : String → Nat) (r : Ring) (x : String) :
    x ∈ (add_node hash r x).nodes := by
  by_cases hx : x ∈ r.nodes
  · rw [add_node_of_mem hash hx]; exact hx
  · rw [add_node_nodes_eq hash hx]; simp

theorem not_mem_remove_node_nodes {r : Ring} {x : String}
    (hnd : r.nodes.Nodup) : x ∉ (remove_node r x).nodes := by
  by_cases hx : x ∈ r.nodes
  · rw [remove_node_nodes_eq hx]
    exact fun h => ((hnd.mem_erase_iff).mp h).1 rfl
  · rw [remove_node_of_not_mem hx]; exact hx

/-- C9: Idempotent membership.  For every ring state whose member list is a
set (duplicate-free, as a Python set always is) and every node id `x`,
`add_node x` twice equals `add_node x` once, and `remove_node x` twice
equals `remove_node x` once. -/
theorem C9_idempotent_membership (hash : String → Nat) (r : Ring) (x : String)
    (hnd : r.nodes.Nodup) :
    add_node hash (add_node hash r x) x = add_node hash r x ∧
    remove_node (remove_node r x) x = remove_node r x :=
  ⟨add_node_of_mem hash (mem_add_node_nodes hash r x),
   remove_node_of_not_mem (not_mem_remove_node_nodes hnd)⟩

/-- Witness for C9 at a concrete ring and node. -/
theorem C9_idempotent_membership_witness :
    ringA.nodes.Nodup ∧
    (add_node hashW (add_node hashW ringA "b") "b" = add_node hashW ringA "b" ∧
     remove_node (remove_node ringA "a") "a" = remove_node ringA "a") :=
  ⟨by decide, C9_idempotent_membership hashW ringA "b" (by decide) |>.1,
    (C9_idempotent_membership hashW ringA "a" (by decide)).2⟩

/-! ## Registration (C6) -/

/-- C6 (amended): `REGISTER_NODE` for an already-registered id returns the
warning response and never an error, and leaves the whole coordinator state
unchanged — the ring membership, the registry, and in particular the
existing entry's `last_heartbeat` (which, contrary to the original claim, is
NOT refreshed: the handler returns before touching the entry). -/
theorem C6_idempotent_registration (hash : String → Nat) (now : Int)
    (st : CoordState) (host port : String)
    (h : host ++ ":" ++ port ∈ dictKeys st.nodes) :
    register_node hash now st host port =
      (st, "WARNING Node " ++ (host ++ ":" ++ port) ++ " already registered") := by
  unfold register_node
  rw [if_pos h]

/-- Witness for C6 at a concrete registry. -/
theorem C6_idempotent_registration_witness :
    ("127.0.0.1" ++ ":" ++ "5001") ∈ dictKeys stW.nodes ∧
    register_node hashW 7 stW "127.0.0.1" "5001" =
      (stW, "WARNING Node " ++ ("127.0.0.1" ++ ":" ++ "5001")
        ++ " already registered") :=
  ⟨by decide, C6_idempotent_registration hashW 7 stW "127.0.0.1" "5001" (by decide)⟩

/-- C6 counterexample: the original claim says a repeated `REGISTER_NODE`
refreshes the entry's `last_heartbeat` to the current time.  It does not:
re-registering `127.0.0.1:5001` at time 7 leaves the timestamp at its
original 0 (the handler returns the warning before any write). -/
theorem C6_counterexample :
    (register_node hashW 7 stW "127.0.0.1" "5001").1.nodes
        = [("127.0.0.1:5001", ⟨"127.0.0.1", "5001", 0⟩)] ∧
    (register_node hashW 7 stW "127.0.0.1" "5001").2
        = "WARNING Node 127.0.0.1:5001 already registered" := by
  decide

/-! ## Empty-ring behaviour (C8) -/

theorem WF_empty (hash : String → Nat) : WF hash Ring.empty := by
  refine ⟨by simp [keysNodup, dictKeys, Ring.empty], by simp [Ring.empty], ?_⟩
  intro p n
  constructor
  · intro h
    exact Option.noConfusion h
  · rintro ⟨h, -⟩
    cases h

/-- C8: Empty-ring failure.  On any well-formed ring with zero members both
`get_node` and `get_nodes` (for every key and count) fail with the
empty-ring `ValueError` (the spec's `EmptyRingError`, our `none`), and
`GET_NODES_FOR_KEY` against a coordinator whose ring has no entries yields
the error response rather than a crash. -/
theorem C8_empty_ring (hash : String → Nat) (r : Ring) (key : String)
    (count : Int) (st : CoordState) (hr : r.nodes = []) (hwf : WF hash r)
    (hst : st.ring.ring = []) :
    get_node hash r key = none ∧ get_nodes hash r key count = none ∧
    get_nodes_for_key hash st key = "ERROR Ring is empty, no nodes available" := by
  have hring : r.ring = [] := by
    cases hring : r.ring with
    | nil => rfl
    | cons e tl =>
      exfalso
      have hmem : e.1 ∈ dictKeys r.ring := by
        rw [hring]
        exact List.mem_map_of_mem _ (List.mem_cons_self e tl)
      obtain ⟨v, hv⟩ := Option.isSome_iff_exists.mp
        (dictGet?_isSome_of_mem_dictKeys hmem)
      have h2 := (hwf.2.2 e.1 v).mp hv
      rw [hr] at h2
      cases h2.1
  refine ⟨?_, ?_, ?_⟩
  · unfold get_node
    rw [if_pos (by simp [hring])]
  · unfold get_nodes
    rw [if_pos (by simp [hring])]
  · unfold get_nodes_for_key
    have h3 : get_nodes hash st.ring key 3 = none := by
      unfold get_nodes
      rw [if_pos (by simp [hst])]
    rw [h3]

/-- Witness for C8 at the freshly-initialised ring and coordinator. -/
theorem C8_empty_ring_witness :
    (Ring.empty.nodes = [] ∧ CoordState.init.ring.ring = []) ∧
    (get_node hashW Ring.empty "anything" = none ∧
     get_nodes hashW Ring.empty "anything" 3 = none ∧
     get_nodes_for_key hashW CoordState.init "anything"
        = "ERROR Ring is empty, no nodes available") :=
  ⟨⟨rfl, rfl⟩, C8_empty_ring hashW Ring.empty "anything" 3 CoordState.init rfl
    (WF_empty hashW) rfl⟩

/-! ## The storage node's PUT replication path (C1) -/

/-- C1: the replication path is dead code.  `_process_command` splits with
`maxsplit=2`, so `parts` never has more than 3 elements, yet the replication
branch requires `len(parts) > 3`.  A `PUT` carrying a comma-separated
replica list therefore stores the replica list INSIDE the value and issues
no `REPLICATE` push at all — contradicting the node's own comment
(`Format: PUT key value [replica_nodes]`), the client (which sends
`PUT key value r1,r2`) and the repository's replication test. -/
theorem C1_replication_dead_code :
    processCommand "127.0.0.1:5001" []
        "PUT k v 127.0.0.1:5002,127.0.0.1:5003" =
      ⟨[("k", "v 127.0.0.1:5002,127.0.0.1:5003")], "OK", []⟩ := by
  decide

/-! ## The liveness sweep (C5) -/

/-- C5: the liveness sweep can never complete an eviction.  The whole body
of `_heartbeat_loop` runs inside `with self.lock:`, and for each stale
entry it calls `self._unregister_node(host, port)`, whose body starts by
acquiring the same non-reentrant `threading.Lock` — the sweep thread blocks
forever before `del self.nodes[...]` or `ring.remove_node` ever run.  At
the failing input — one node registered at time 0, swept at time 11, so
its elapsed time 11 exceeds the 10-unit threshold and the claim demands
its removal from table and ring — the sweep deadlocks (`none`) with the
entry still present, and nothing is ever removed.  The final conjunct
records the second divergence: the stale-selection comparison is strict
(`> 10`), so at elapsed exactly 10 the entry is not even selected as dead,
against the claim's `elapsed ≥ threshold ⇒ evict`. -/
theorem C5_sweep_deadlock :
    heartbeat_sweep 11 stW = none ∧
    stW.nodes = [("127.0.0.1:5001", ⟨"127.0.0.1", "5001", 0⟩)] ∧
    stW.nodes.filter
      (fun e => decide ((10 : Int) - e.2.last_heartbeat > 10)) = [] := by
  decide

/-! ## Parsing of node commands (C7) -/

theorem pySplitCore_token (t cs : List Char) (n : Nat) (acc : List Char)
    (h : ∀ c ∈ t, pyIsSpace c = false) :
    pySplitCore (t ++ cs) (some (n + 1)) acc
      = pySplitCore cs (some (n + 1)) (t.reverse ++ acc) := by
  induction t generalizing acc with
  | nil => simp
  | cons c t2 ih =>
    have hc : pyIsSpace c = false := h c (List.mem_cons_self _ _)
    rw [List.cons_append]
    show pySplitCore (c :: (t2 ++ cs)) (some (n + 1)) acc = _
    simp only [pySplitCore, hc, Bool.false_eq_true, if_false]
    rw [if_neg (by simp)]
    rw [ih _ (fun d hd => h d (List.mem_cons_of_mem c hd))]
    simp

theorem pySplitCore_space_emit (cs : List Char) (n : Nat) (acc : List Char)
    (hacc : acc ≠ []) :
    pySplitCore (' ' :: cs) (some (n + 1)) acc
      = String.mk acc.reverse :: pySplitCore cs (some n) [] := by
  simp only [pySplitCore]
  rw [if_pos (by decide), if_neg hacc]
  simp

theorem pySplitCore_end (n : Nat) (acc : List Char) (hacc : acc ≠ []) :
    pySplitCore [] (some n) acc = [String.mk acc.reverse] := by
  simp [pySplitCore, hacc]

theorem pySplitCore_rest (w : List Char) (c : Char) (hc : pyIsSpace c = false) :
    pySplitCore (c :: w) (some 0) [] = [String.mk (c :: w)] := by
  simp [pySplitCore, hc]

theorem pySplitCore_word_cons (w : List Char) (rest : List Char) (n : Nat)
    (hw1 : w ≠ []) (hw2 : ∀ c ∈ w, pyIsSpace c = false) :
    pySplitCore (w ++ ' ' :: rest) (some (n + 1)) []
      = String.mk w :: pySplitCore rest (some n) [] := by
  rw [pySplitCore_token w _ n [] hw2,
    pySplitCore_space_emit _ n _ (by simp [hw1])]
  simp

theorem pySplitCore_word_end (w : List Char) (n : Nat)
    (hw1 : w ≠ []) (hw2 : ∀ c ∈ w, pyIsSpace c = false) :
    pySplitCore w (some (n + 1)) [] = [String.mk w] := by
  have h0 : pySplitCore (w ++ []) (some (n + 1)) [] = [String.mk w] := by
    rw [pySplitCore_token w [] n [] hw2,
      pySplitCore_end (n + 1) _ (by simp [hw1])]
    simp
  simpa using h0

theorem pySplit_cmd_key (w : String) (k : String) (hw1 : w.data ≠ [])
    (hw2 : ∀ c ∈ w.data, pyIsSpace c = false) (hk : isToken k) :
    pySplit (w ++ " " ++ k) (some 2) = [w, k] := by
  have hd : (w ++ " " ++ k).data = w.data ++ ' ' :: k.data := by
    simp [String.data_append]
  have hk1 : k.data ≠ [] := by
    intro h0
    exact hk.1 (by cases k; simp at h0; rw [h0])
  unfold pySplit
  rw [hd, pySplitCore_word_cons w.data k.data 1 hw1 hw2,
    pySplitCore_word_end k.data 0 hk1 hk.2]

theorem pySplit_cmd_key_value (w k v : String) (hw1 : w.data ≠ [])
    (hw2 : ∀ c ∈ w.data, pyIsSpace c = false) (hk : isToken k) (hv1 : v ≠ "")
    (hv2 : ∀ c ∈ v.data.take 1, pyIsSpace c = false) :
    pySplit (w ++ " " ++ k ++ " " ++ v) (some 2) = [w, k, v] := by
  have hd : (w ++ " " ++ k ++ " " ++ v).data
      = w.data ++ ' ' :: (k.data ++ ' ' :: v.data) := by
    simp [String.data_append]
  have hk1 : k.data ≠ [] := by
    intro h0
    exact hk.1 (by cases k; simp at h0; rw [h0])
  obtain ⟨c, cs, hv⟩ : ∃ c cs, v.data = c :: cs := by
    cases hv0 : v.data with
    | nil => exact absurd (by cases v; simp at hv0; rw [hv0]) hv1
    | cons c cs => exact ⟨c, cs, rfl⟩
  have hc : pyIsSpace c = false := by
    have := hv2 c (by rw [hv]; simp)
    exact this
  unfold pySplit
  rw [hd, pySplitCore_word_cons w.data _ 1 hw1 hw2,
    pySplitCore_word_cons k.data _ 0 hk1 hk.2, hv,
    pySplitCore_rest cs c hc, ← hv]

/-- C7: Single-node round trip.  For every starting map, every
whitespace-free nonempty key and every nonempty value not starting with
whitespace: `PUT k v` answers `OK` and stores `k → v`; `GET k` then answers
`VALUE v`; `DELETE k` answers `OK` (on every map, whether or not the key is
present) and removes the key; the following `GET k` answers `NOT_FOUND`. -/
theorem C7_round_trip (node_id : String) (data : List (String × String))
    (k v : String) (hk : isToken k) (hv1 : v ≠ "")
    (hv2 : ∀ c ∈ v.data.take 1, pyIsSpace c = false) :
    ((processCommand node_id data ("PUT " ++ k ++ " " ++ v)).response = "OK" ∧
     (processCommand node_id data ("PUT " ++ k ++ " " ++ v)).data
        = dictSet data k v) ∧
    (processCommand node_id (dictSet data k v) ("GET " ++ k)).response
        = "VALUE " ++ v ∧
    ((processCommand node_id (dictSet data k v) ("DELETE " ++ k)).data
        = dictDel (dictSet data k v) k ∧
     (∀ d2 : List (String × String),
        (processCommand node_id d2 ("DELETE " ++ k)).response = "OK")) ∧
    (processCommand node_id (dictDel (dictSet data k v) k)
        ("GET " ++ k)).response = "NOT_FOUND" := by
  have hPUT : ("PUT " : String) = "PUT" ++ " " := by decide
  have hGET : ("GET " : String) = "GET" ++ " " := by decide
  have hDEL : ("DELETE " : String) = "DELETE" ++ " " := by decide
  have hput : pySplit ("PUT " ++ k ++ " " ++ v) (some 2) = ["PUT", k, v] := by
    rw [hPUT]
    exact pySplit_cmd_key_value "PUT" k v (by decide) (by decide) hk hv1 hv2
  have hget : pySplit ("GET " ++ k) (some 2) = ["GET", k] := by
    rw [hGET]
    exact pySplit_cmd_key "GET" k (by decide) (by decide) hk
  have hdel : pySplit ("DELETE " ++ k) (some 2) = ["DELETE", k] := by
    rw [hDEL]
    exact pySplit_cmd_key "DELETE" k (by decide) (by decide) hk
  have hgetv : dictGet? (dictSet data k v) k = some v := by
    rw [dictGet?_dictSet, if_pos rfl]
  have hgetn : dictGet? (dictDel (dictSet data k v) k) k = none := by
    rw [dictGet?_dictDel, if_pos rfl]
  refine ⟨⟨?_, ?_⟩, ?_, ⟨?_, ?_⟩, ?_⟩
  · simp [processCommand, hput]
  · simp [processCommand, hput]
  · simp [processCommand, hget, hgetv]
  · simp [processCommand, hdel]
  · intro d2
    simp [processCommand, hdel]
  · simp [processCommand, hget, hgetn]

/-- Witness for C7 at a concrete key/value pair. -/
theorem C7_round_trip_witness :
    (isToken "user" ∧ ("42" : String) ≠ "" ∧
      (∀ c ∈ ("42" : String).data.take 1, pyIsSpace c = false)) ∧
    (((processCommand "n" [] ("PUT " ++ "user" ++ " " ++ "42")).response = "OK" ∧
      (processCommand "n" [] ("PUT " ++ "user" ++ " " ++ "42")).data
        = dictSet [] "user" "42") ∧
     (processCommand "n" (dictSet [] "user" "42")
        ("GET " ++ "user")).response = "VALUE " ++ "42" ∧
     ((processCommand "n" (dictSet [] "user" "42")
        ("DELETE " ++ "user")).data = dictDel (dictSet [] "user" "42") "user" ∧
      (processCommand "n" [("other", "1")]
        ("DELETE " ++ "user")).response = "OK") ∧
     (processCommand "n" (dictDel (dictSet [] "user" "42") "user")
        ("GET " ++ "user")).response = "NOT_FOUND") :=
  ⟨⟨⟨by decide, by decide⟩, by decide, by decide⟩,
    by
      have h := C7_round_trip "n" [] "user" "42" ⟨by decide, by decide⟩
        (by decide) (by decide)
      exact ⟨h.1, h.2.1, ⟨h.2.2.1.1, h.2.2.1.2 [("other", "1")]⟩, h.2.2.2⟩⟩

/-! ## The collection loop of `get_nodes` (C3, C10) -/

theorem collectDistinctAll_nodup (xs : List String) :
    ∀ acc : List String, acc.Nodup → (collectDistinctAll xs acc).Nodup := by
  induction xs with
  | nil => intro acc h; exact h
  | cons x t ih =>
    intro acc h
    unfold collectDistinctAll
    by_cases hx : x ∈ acc
    · rw [if_pos hx]; exact ih acc h
    · rw [if_neg hx]
      exact ih _ (by simp [List.nodup_append, h, hx])

theorem collectDistinctAll_toFinset (xs : List String) :
    ∀ acc : List String,
      (collectDistinctAll xs acc).toFinset = acc.toFinset ∪ xs.toFinset := by
  induction xs with
  | nil => intro acc; simp [collectDistinctAll]
  | cons x t ih =>
    intro acc
    unfold collectDistinctAll
    by_cases hx : x ∈ acc
    · rw [if_pos hx, ih]
      ext a
      by_cases ha : a = x <;> simp [ha, hx, List.mem_toFinset]
    · rw [if_neg hx, ih]
      ext a
      by_cases ha : a = x <;>
        simp [ha, List.toFinset_append, List.mem_toFinset, or_comm, or_assoc,
          or_left_comm]

theorem collectDistinctAll_head? (xs : List String) :
    ∀ acc : List String, acc ≠ [] →
      (collectDistinctAll xs acc).head? = acc.head? := by
  induction xs with
  | nil => intro acc _; rfl
  | cons x t ih =>
    intro acc hacc
    unfold collectDistinctAll
    by_cases hx : x ∈ acc
    · rw [if_pos hx]; exact ih acc hacc
    · rw [if_neg hx, ih _ (by simp [hacc])]
      cases acc with
      | nil => exact absurd rfl hacc
      | cons a t2 => rfl

theorem collectDistinct_eq_all_of_nonpos (c : Int) (hc : c ≤ 0)
    (xs : List String) : ∀ acc : List String,
      collectDistinct c xs acc = collectDistinctAll xs acc := by
  induction xs with
  | nil => intro acc; rfl
  | cons x t ih =>
    intro acc
    unfold collectDistinct collectDistinctAll
    by_cases hx : x ∈ acc
    · rw [if_pos hx, if_pos hx, ih]
    · rw [if_neg hx, if_neg hx, if_neg (by intro h; omega), ih]

theorem collectDistinct_nodup (c : Int) (xs : List String) :
    ∀ acc : List String, acc.Nodup → (collectDistinct c xs acc).Nodup := by
  induction xs with
  | nil => intro acc h; exact h
  | cons x t ih =>
    intro acc h
    unfold collectDistinct
    by_cases hx : x ∈ acc
    · rw [if_pos hx]; exact ih acc h
    · rw [if_neg hx]
      by_cases he : ((acc.length + 1 : Nat) : Int) = c
      · rw [if_pos he]
        simp [List.nodup_append, h, hx]
      · rw [if_neg he]
        exact ih _ (by simp [List.nodup_append, h, hx])

theorem collectDistinct_head? (c : Int) (xs : List String) :
    ∀ acc : List String, acc ≠ [] →
      (collectDistinct c xs acc).head? = acc.head? := by
  induction xs with
  | nil => intro acc _; rfl
  | cons x t ih =>
    intro acc hacc
    unfold collectDistinct
    by_cases hx : x ∈ acc
    · rw [if_pos hx]; exact ih acc hacc
    · rw [if_neg hx]
      have hape : acc ++ [x] ≠ [] := by simp
      have haph : (acc ++ [x]).head? = acc.head? := by
        cases acc with
        | nil => exact absurd rfl hacc
        | cons a t2 => rfl
      by_cases he : ((acc.length + 1 : Nat) : Int) = c
      · rw [if_pos he]; exact haph
      · rw [if_neg he, ih _ hape, haph]

theorem collectDistinct_head_cons (c : Int) (x : String) (xs : List String) :
    (collectDistinct c (x :: xs) []).head? = some x := by
  unfold collectDistinct
  rw [if_neg (List.not_mem_nil x)]
  by_cases hc : ((List.length ([] : List String) + 1 : Nat) : Int) = c
  · rw [if_pos hc]; rfl
  · rw [if_neg hc]
    simp only [List.nil_append]
    rw [collectDistinct_head? c xs [x] (by simp)]
    rfl

theorem collectDistinct_length (c : Int) (xs : List String) :
    ∀ acc : List String, (acc.length : Int) < c →
      c ≤ ((collectDistinctAll xs acc).length : Int) →
      ((collectDistinct c xs acc).length : Int) = c := by
  induction xs with
  | nil =>
    intro acc h1 h2
    exfalso
    unfold collectDistinctAll at h2
    omega
  | cons x t ih =>
    intro acc h1 h2
    unfold collectDistinct
    unfold collectDistinctAll at h2
    by_cases hx : x ∈ acc
    · rw [if_pos hx]
      rw [if_pos hx] at h2
      exact ih acc h1 h2
    · rw [if_neg hx]
      rw [if_neg hx] at h2
      by_cases he : ((acc.length + 1 : Nat) : Int) = c
      · rw [if_pos he]
        simp only [List.length_append, List.length_cons, List.length_nil]
        omega
      · rw [if_neg he]
        have hlt : (((acc ++ [x]).length : Nat) : Int) < c := by
          rw [List.length_append, List.length_singleton]
          omega
        exact ih _ hlt h2

/-! ## Preservation of well-formedness by the membership operations -/

theorem DistinctVKeys_sub {hash : String → Nat} {N S : List String}
    (h : DistinctVKeys hash N) (hs : ∀ x ∈ S, x ∈ N) :
    DistinctVKeys hash S :=
  fun n₁ h₁ n₂ h₂ i hi j hj he => h n₁ (hs _ h₁) n₂ (hs _ h₂) i hi j hj he

theorem WF_add_node (hash : String → Nat) {r : Ring} {x : String}
    (hwf : WF hash r) (hdv : DistinctVKeys hash (x :: r.nodes)) :
    WF hash (add_node hash r x) := by
  by_cases hx : x ∈ r.nodes
  · rwa [add_node_of_mem hash hx]
  · obtain ⟨hk, hn, hiff⟩ := hwf
    have hring := add_node_ring_eq hash hx
    have hnodes := add_node_nodes_eq hash hx
    refine ⟨?_, ?_, ?_⟩
    · show (dictKeys (add_node hash r x).ring).Nodup
      rw [hring]
      exact nodup_dictKeys_foldl_dictSet _ _ _ hk
    · rw [hnodes]
      simp [List.nodup_append, hn, hx]
    · intro p n
      rw [hring, dictGet?_foldl_dictSet, hnodes]
      by_cases hp : p ∈ (List.range VIRTUAL_NODES).map (fun i => hash (vkey x i))
      · rw [if_pos hp]
        rcases List.mem_map.mp hp with ⟨i, hi, hpi⟩
        constructor
        · intro he
          cases Option.some.inj he
          exact ⟨by simp, i, by simpa using hi, hpi⟩
        · rintro ⟨hmem, j, hj, hpj⟩
          rcases List.mem_append.mp hmem with hmem | hmem
          · exfalso
            have := hdv n (List.mem_cons_of_mem x hmem) x
              (List.mem_cons_self x _) j hj i (by simpa using hi)
              (by rw [hpj, hpi])
            exact hx (this.1 ▸ hmem)
          · have : n = x := by simpa using hmem
            rw [this]
      · rw [if_neg hp]
        rw [hiff p n]
        constructor
        · rintro ⟨hmem, hex⟩
          exact ⟨List.mem_append_left _ hmem, hex⟩
        · rintro ⟨hmem, j, hj, hpj⟩
          rcases List.mem_append.mp hmem with hmem | hmem
          · exact ⟨hmem, j, hj, hpj⟩
          · exfalso
            have hnx : n = x := by simpa using hmem
            apply hp
            rw [← hpj, hnx]
            exact List.mem_map_of_mem _ (by simpa using hj)

theorem WF_remove_node {hash : String → Nat} {r : Ring} {x : String}
    (hwf : WF hash r) : WF hash (remove_node r x) := by
  by_cases hx : x ∈ r.nodes
  · obtain ⟨hk, hn, hiff⟩ := hwf
    have hring := remove_node_ring_eq hk hx
    have hnodes := remove_node_nodes_eq hx
    refine ⟨?_, ?_, ?_⟩
    · show (dictKeys (remove_node r x).ring).Nodup
      rw [hring]
      show ((r.ring.filter (fun e => !decide (e.2 = x))).map Prod.fst).Nodup
      exact List.Nodup.sublist ((List.filter_sublist _).map Prod.fst) hk
    · rw [hnodes]
      exact hn.erase x
    · intro p n
      rw [hring, dictGet?_filter_val_ne hk x p, hnodes]
      by_cases hpx : dictGet? r.ring p = some x
      · rw [if_pos hpx]
        constructor
        · intro he; cases he
        · rintro ⟨hmem, j, hj, hpj⟩
          exfalso
          have hno := (hn.mem_erase_iff).mp hmem
          have : dictGet? r.ring p = some n :=
            (hiff p n).mpr ⟨hno.2, j, hj, hpj⟩
          rw [hpx] at this
          exact hno.1 (Option.some.inj this).symm
      · rw [if_neg hpx, hiff p n]
        constructor
        · rintro ⟨hmem, hex⟩
          refine ⟨(hn.mem_erase_iff).mpr ⟨?_, hmem⟩, hex⟩
          intro hnx
          exact hpx (hnx ▸ (hiff p n).mpr ⟨hmem, hex⟩)
        · rintro ⟨hmem, hex⟩
          exact ⟨((hn.mem_erase_iff).mp hmem).2, hex⟩
  · rwa [remove_node_of_not_mem hx]

theorem WF_ringA : WF hashW ringA :=
  WF_add_node hashW (WF_empty hashW) (by decide)

theorem WF_ringW : WF hashW ringW :=
  WF_add_node hashW WF_ringA (by decide)

/-! ## The ring traversal of `get_nodes` -/

theorem slotOwner_eq_of_lookup {r : Ring} {p : Nat} {v : String}
    (hv : dictGet? r.ring p = some v) : slotOwner r p = v := by
  simp [slotOwner, hv]

theorem ringTraversal_length (hash : String → Nat) (r : Ring) (key : String) :
    (ringTraversal hash r key).length = (sorted_keys r).length := by
  simp [ringTraversal]

theorem ringTraversal_eq_rotate (hash : String → Nat) (r : Ring) (key : String)
    (h : r.ring ≠ []) :
    ringTraversal hash r key
      = ((sorted_keys r).rotate (startIdx hash r key)).map (slotOwner r) := by
  have hpos : 0 < (sorted_keys r).length :=
    List.length_pos.mpr (sorted_keys_ne_nil h)
  apply List.ext_getElem
  · simp [ringTraversal, List.length_rotate]
  · intro i h1 h2
    simp only [ringTraversal, List.getElem_map, List.getElem_range,
      List.getElem_rotate]
    have hidx : (startIdx hash r key + i) % (sorted_keys r).length
        = (i + startIdx hash r key) % (sorted_keys r).length := by
      rw [Nat.add_comm]
    congr 1
    rw [hidx, List.getD_eq_getElem?_getD,
      List.getElem?_eq_getElem (Nat.mod_lt _ hpos)]
    rfl

theorem ringTraversal_toFinset (hash : String → Nat) (r : Ring) (key : String)
    (h : r.ring ≠ []) (hwf : WF hash r) :
    (ringTraversal hash r key).toFinset = r.nodes.toFinset := by
  rw [ringTraversal_eq_rotate hash r key h,
    List.toFinset_eq_of_perm _ _
      ((List.rotate_perm (sorted_keys r) (startIdx hash r key)).map
        (slotOwner r))]
  ext a
  simp only [List.mem_toFinset, List.mem_map]
  constructor
  · rintro ⟨p, hp, rfl⟩
    have hpk := mem_sorted_keys.mp hp
    obtain ⟨v, hv⟩ := Option.isSome_iff_exists.mp
      (dictGet?_isSome_of_mem_dictKeys hpk)
    rw [slotOwner_eq_of_lookup hv]
    exact ((hwf.2.2 p v).mp hv).1
  · intro ha
    have hv : dictGet? r.ring (hash (vkey a 0)) = some a :=
      (hwf.2.2 _ a).mpr ⟨ha, 0, by simp [VIRTUAL_NODES], rfl⟩
    exact ⟨hash (vkey a 0),
      mem_sorted_keys.mpr (mem_dictKeys_of_dictGet?_eq_some hv),
      slotOwner_eq_of_lookup hv⟩

theorem ringTraversal_head? (hash : String → Nat) (r : Ring) (key : String)
    (h : r.ring ≠ []) :
    (ringTraversal hash r key).head? = get_node hash r key := by
  have hpos : 0 < (sorted_keys r).length :=
    List.length_pos.mpr (sorted_keys_ne_nil h)
  have hlen : 0 < (ringTraversal hash r key).length := by
    rw [ringTraversal_length]; exact hpos
  rw [List.head?_eq_getElem?, List.getElem?_eq_getElem hlen]
  unfold get_node
  rw [if_neg (by simpa [List.isEmpty_iff] using h)]
  congr 1
  simp only [ringTraversal, List.getElem_map, List.getElem_range]
  congr 1
  rw [Nat.add_zero, Nat.mod_eq_of_lt (startIdx_lt hash key h)]

theorem get_nodes_eq (hash : String → Nat) (r : Ring) (key : String) (n : Int)
    (h : r.ring ≠ []) :
    get_nodes hash r key n = some (collectDistinct
      (if ((r.nodes.length : Int) < n) then (r.nodes.length : Int) else n)
      (ringTraversal hash r key) []) := by
  unfold get_nodes
  rw [if_neg (by simpa [List.isEmpty_iff] using h)]

theorem ring_ne_nil_of_member (hash : String → Nat) {r : Ring}
    (hwf : WF hash r) (hm : 1 ≤ r.nodes.length) : r.ring ≠ [] := by
  obtain ⟨n0, hn0⟩ := List.exists_mem_of_length_pos hm
  have hv : dictGet? r.ring (hash (vkey n0 0)) = some n0 :=
    (hwf.2.2 _ n0).mpr ⟨hn0, 0, by simp [VIRTUAL_NODES], rfl⟩
  have hk := mem_dictKeys_of_dictGet?_eq_some hv
  intro hnil
  rw [hnil] at hk
  cases hk

theorem collectAll_traversal_length (hash : String → Nat) (r : Ring)
    (key : String) (hwf : WF hash r) (hm : 1 ≤ r.nodes.length) :
    (collectDistinctAll (ringTraversal hash r key) []).length
      = r.nodes.length := by
  have h := ring_ne_nil_of_member hash hwf hm
  have h1 : (collectDistinctAll (ringTraversal hash r key) []).Nodup :=
    collectDistinctAll_nodup _ [] (by simp)
  rw [← List.toFinset_card_of_nodup h1, collectDistinctAll_toFinset,
    List.toFinset_nil, Finset.empty_union,
    ringTraversal_toFinset hash r key h hwf,
    List.toFinset_card_of_nodup hwf.2.1]

theorem collect_head_core (hash : String → Nat) (r : Ring) (key : String)
    (c : Int) (h : r.ring ≠ []) :
    (collectDistinct c (ringTraversal hash r key) []).head?
      = get_node hash r key := by
  cases hrt : ringTraversal hash r key with
  | nil =>
    exfalso
    have hl := ringTraversal_length hash r key
    rw [hrt] at hl
    have hpos := List.length_pos.mpr (sorted_keys_ne_nil h)
    rw [← hl] at hpos
    exact Nat.lt_irrefl 0 hpos
  | cons x t =>
    have h2 := ringTraversal_head? hash r key h
    rw [hrt] at h2
    rw [collectDistinct_head_cons]
    exact h2

/-- C3 (amended): for every well-formed ring with at least one member and
every key: when `1 ≤ n ≤ |members|`, `get_nodes(key, n)` returns exactly `n`
distinct physical node ids with the primary (`get_node(key)`) first, walking
the ring in successor order; when `n > |members|`, it returns exactly
`|members|` distinct node ids (again primary first) without error. -/
theorem C3_distinctness_clamping (hash : String → Nat) (r : Ring)
    (key : String) (n : Int) (hwf : WF hash r) (hm : 1 ≤ r.nodes.length) :
    (1 ≤ n → n ≤ (r.nodes.length : Int) →
      ∃ l, get_nodes hash r key n = some l ∧ (l.length : Int) = n ∧ l.Nodup ∧
        l.head? = get_node hash r key) ∧
    ((r.nodes.length : Int) < n →
      ∃ l, get_nodes hash r key n = some l ∧ l.length = r.nodes.length ∧
        l.Nodup ∧ l.head? = get_node hash r key) := by
  have hring := ring_ne_nil_of_member hash hwf hm
  have hall := collectAll_traversal_length hash r key hwf hm
  constructor
  · intro hn1 hn2
    refine ⟨collectDistinct n (ringTraversal hash r key) [], ?_, ?_, ?_, ?_⟩
    · rw [get_nodes_eq hash r key n hring, if_neg (by omega)]
    · exact collectDistinct_length n _ [] (by simpa using hn1)
        (by rw [hall]; exact hn2)
    · exact collectDistinct_nodup n _ [] (by simp)
    · exact collect_head_core hash r key n hring
  · intro hn
    refine ⟨collectDistinct (r.nodes.length : Int) (ringTraversal hash r key) [],
      ?_, ?_, ?_, ?_⟩
    · rw [get_nodes_eq hash r key n hring, if_pos hn]
    · have := collectDistinct_length (r.nodes.length : Int) _ []
        (by simpa using hm) (by rw [hall])
      exact_mod_cast this
    · exact collectDistinct_nodup _ _ [] (by simp)
    · exact collect_head_core hash r key _ hring

/-- C3 counterexample: the claim as stated quantifies over every requested
count `n ≤ |members|`, which includes `n = 0`; but `get_nodes(key, 0)` on a
one-member ring returns that one member (the break test `len(result) == 0`
never fires after the first append), not zero nodes. -/
theorem C3_counterexample :
    ringA.nodes.length = 1 ∧ get_nodes hashW ringA "k" 0 = some ["a"] := by
  decide

/-- Witness for the amended C3 at a concrete two-member ring, with every
hypothesis (including the `1 ≤ n ≤ |members|` bounds) discharged. -/
theorem C3_distinctness_clamping_witness :
    (WF hashW ringW ∧ 1 ≤ ringW.nodes.length ∧ 1 ≤ (2 : Int) ∧
      (2 : Int) ≤ (ringW.nodes.length : Int)) ∧
    (∃ l, get_nodes hashW ringW "k" 2 = some l ∧ (l.length : Int) = 2 ∧
      l.Nodup ∧ l.head? = get_node hashW ringW "k") :=
  ⟨⟨WF_ringW, by decide, by decide, by decide⟩,
    (C3_distinctness_clamping hashW ringW "k" 2 WF_ringW (by decide)).1
      (by decide) (by decide)⟩

/-- C10: for every well-formed ring with at least one member, a
non-positive requested count skips the clamping branch, never triggers the
`len(result) == count` break, and returns the non-empty full list of all
distinct members in ring-successor order starting from the key's successor
(primary first). -/
theorem C10_nonpositive_count (hash : String → Nat) (r : Ring) (key : String)
    (n : Int) (hwf : WF hash r) (hm : 1 ≤ r.nodes.length) (hn : n ≤ 0) :
    get_nodes hash r key n
      = some (collectDistinctAll (ringTraversal hash r key) []) ∧
    (collectDistinctAll (ringTraversal hash r key) []).length
      = r.nodes.length ∧
    (collectDistinctAll (ringTraversal hash r key) []).toFinset
      = r.nodes.toFinset ∧
    collectDistinctAll (ringTraversal hash r key) [] ≠ [] ∧
    (collectDistinctAll (ringTraversal hash r key) []).head?
      = get_node hash r key := by
  have hring := ring_ne_nil_of_member hash hwf hm
  have hall := collectAll_traversal_length hash r key hwf hm
  refine ⟨?_, hall, ?_, ?_, ?_⟩
  · rw [get_nodes_eq hash r key n hring, if_neg (by omega),
      collectDistinct_eq_all_of_nonpos n hn _ []]
  · rw [collectDistinctAll_toFinset, List.toFinset_nil, Finset.empty_union]
    exact ringTraversal_toFinset hash r key hring hwf
  · intro hnil
    rw [hnil] at hall
    simp at hall
    omega
  · rw [← collectDistinct_eq_all_of_nonpos n hn _ []]
    exact collect_head_core hash r key n hring

/-- Witness for C10 at a concrete two-member ring and count 0. -/
theorem C10_nonpositive_count_witness :
    (WF hashW ringW ∧ 1 ≤ ringW.nodes.length ∧ (0 : Int) ≤ 0) ∧
    (get_nodes hashW ringW "k" 0
      = some (collectDistinctAll (ringTraversal hashW ringW "k") []) ∧
     (collectDistinctAll (ringTraversal hashW ringW "k") []).length
      = ringW.nodes.length ∧
     (collectDistinctAll (ringTraversal hashW ringW "k") []).toFinset
      = ringW.nodes.toFinset ∧
     collectDistinctAll (ringTraversal hashW ringW "k") [] ≠ [] ∧
     (collectDistinctAll (ringTraversal hashW ringW "k") []).head?
      = get_node hashW ringW "k") :=
  ⟨⟨WF_ringW, by decide, by decide⟩,
    C10_nonpositive_count hashW ringW "k" 0 WF_ringW (by decide) (by decide)⟩

/-! ## The structural invariant over operation sequences (C4) -/

theorem foldl_dictSet_length {κ α : Type} [DecidableEq κ] (hs : List κ) (B : α) :
    ∀ m : List (κ × α), hs.Nodup → (∀ h0 ∈ hs, h0 ∉ dictKeys m) →
      (hs.foldl (fun m h => dictSet m h B) m).length = m.length + hs.length := by
  induction hs with
  | nil => intro m _ _; simp
  | cons k t ih =>
    intro m hnd hout
    rw [List.foldl_cons]
    have hk : k ∉ dictKeys m := hout k (List.mem_cons_self k t)
    have hset : dictSet m k B = m ++ [(k, B)] := by
      unfold dictSet
      rw [if_neg (fun ha => hk ((mem_dictKeys_iff_any m k).mp ha))]
    rw [ih (dictSet m k B) (List.nodup_cons.mp hnd).2 ?_]
    · rw [hset]
      simp only [List.length_append, List.length_cons, List.length_nil]
      omega
    · intro h0 h0t
      rw [mem_dictKeys_dictSet_iff]
      rintro (rfl | hm)
      · exact (List.nodup_cons.mp hnd).1 h0t
      · exact hout h0 (List.mem_cons_of_mem k h0t) hm

theorem vkey_hashes_nodup {hash : String → Nat} {x : String} {ns : List String}
    (hdv : DistinctVKeys hash (x :: ns)) :
    ((List.range VIRTUAL_NODES).map (fun i => hash (vkey x i))).Nodup := by
  apply List.Nodup.map_on ?_ (List.nodup_range VIRTUAL_NODES)
  intro i hi j hj he
  exact (hdv x (List.mem_cons_self _ _) x (List.mem_cons_self _ _)
    i (by simpa using hi) j (by simpa using hj) he).2

theorem vkey_hashes_fresh {hash : String → Nat} {r : Ring} {x : String}
    (hwf : WF hash r) (hdv : DistinctVKeys hash (x :: r.nodes))
    (hx : x ∉ r.nodes) :
    ∀ h0 ∈ (List.range VIRTUAL_NODES).map (fun i => hash (vkey x i)),
      h0 ∉ dictKeys r.ring := by
  intro h0 hh0 hk
  rcases List.mem_map.mp hh0 with ⟨i, hi, rfl⟩
  obtain ⟨v, hv⟩ := Option.isSome_iff_exists.mp
    (dictGet?_isSome_of_mem_dictKeys hk)
  obtain ⟨hvm, j, hj, hpj⟩ := (hwf.2.2 _ v).mp hv
  have heq := hdv v (List.mem_cons_of_mem x hvm) x (List.mem_cons_self _ _)
    j hj i (by simpa using hi) hpj
  exact hx (heq.1 ▸ hvm)

theorem ring_length_add (hash : String → Nat) {r : Ring} {x : String}
    (hwf : WF hash r) (hdv : DistinctVKeys hash (x :: r.nodes))
    (hx : x ∉ r.nodes) :
    (add_node hash r x).ring.length = r.ring.length + VIRTUAL_NODES := by
  rw [add_node_ring_eq hash hx,
    foldl_dictSet_length _ _ r.ring (vkey_hashes_nodup hdv)
      (vkey_hashes_fresh hwf hdv hx)]
  simp

theorem ring_length_remove {hash : String → Nat} {r : Ring} {x : String}
    (hwf : WF hash r) (hdv : DistinctVKeys hash (x :: r.nodes))
    (hx : x ∈ r.nodes) :
    r.ring.length = (remove_node r x).ring.length + VIRTUAL_NODES := by
  have hk := hwf.1
  rw [remove_node_ring_eq hk hx]
  have hsplit : (r.ring.filter (fun e => !decide (e.2 = x))).length
      + (r.ring.filter (fun e => decide (e.2 = x))).length = r.ring.length := by
    rw [← List.countP_eq_length_filter, ← List.countP_eq_length_filter,
      Nat.add_comm]
    conv_rhs => rw [List.length_eq_countP_add_countP
      (fun e : Nat × String => decide (e.2 = x)) r.ring]
    congr 1
    apply List.countP_congr
    intro e _
    simp
  have hS : (r.ring.filter (fun e => decide (e.2 = x))).length
      = VIRTUAL_NODES := by
    have hnodS : ((r.ring.filter (fun e => decide (e.2 = x))).map
        Prod.fst).Nodup :=
      List.Nodup.sublist ((List.filter_sublist _).map Prod.fst) hk
    have hmemS : ∀ p, p ∈ (r.ring.filter
          (fun e => decide (e.2 = x))).map Prod.fst ↔
        p ∈ (List.range VIRTUAL_NODES).map (fun i => hash (vkey x i)) := by
      intro p
      constructor
      · intro hp
        rcases List.mem_map.mp hp with ⟨e, heS, rfl⟩
        rcases List.mem_filter.mp heS with ⟨her, hex⟩
        have hex2 : e.2 = x := by simpa using hex
        have hv : dictGet? r.ring e.1 = some x := by
          rw [dictGet?_eq_some_of_mem hk her, hex2]
        obtain ⟨-, j, hj, hpj⟩ := (hwf.2.2 e.1 x).mp hv
        rw [← hpj]
        exact List.mem_map_of_mem _ (by simpa using hj)
      · intro hp
        rcases List.mem_map.mp hp with ⟨i, hi, rfl⟩
        have hv : dictGet? r.ring (hash (vkey x i)) = some x :=
          (hwf.2.2 _ x).mpr ⟨hx, i, by simpa using hi, rfl⟩
        have hmem := mem_of_dictGet?_eq_some hv
        exact List.mem_map_of_mem _ (List.mem_filter.mpr ⟨hmem, by simp⟩)
    have hTFeq : ((r.ring.filter (fun e => decide (e.2 = x))).map
          Prod.fst).toFinset
        = ((List.range VIRTUAL_NODES).map
            (fun i => hash (vkey x i))).toFinset := by
      ext p
      simp only [List.mem_toFinset]
      exact hmemS p
    calc (r.ring.filter (fun e => decide (e.2 = x))).length
        = ((r.ring.filter (fun e => decide (e.2 = x))).map Prod.fst).length :=
          (List.length_map _ _).symm
      _ = ((r.ring.filter (fun e => decide (e.2 = x))).map
            Prod.fst).toFinset.card :=
          (List.toFinset_card_of_nodup hnodS).symm
      _ = ((List.range VIRTUAL_NODES).map
            (fun i => hash (vkey x i))).toFinset.card := by rw [hTFeq]
      _ = ((List.range VIRTUAL_NODES).map
            (fun i => hash (vkey x i))).length :=
          List.toFinset_card_of_nodup (vkey_hashes_nodup hdv)
      _ = VIRTUAL_NODES := by simp
  omega

theorem step_add (hash : String → Nat) {r : Ring} {x : String}
    {N : List String} (hdvN : DistinctVKeys hash N) (hxN : x ∈ N)
    (h1 : WF hash r) (h2 : ∀ y ∈ r.nodes, y ∈ N)
    (h3 : r.ring.length = VIRTUAL_NODES * r.nodes.length) :
    WF hash (add_node hash r x) ∧
    (∀ y ∈ (add_node hash r x).nodes, y ∈ N) ∧
    (add_node hash r x).ring.length
      = VIRTUAL_NODES * (add_node hash r x).nodes.length := by
  have hdvx : DistinctVKeys hash (x :: r.nodes) := by
    apply DistinctVKeys_sub hdvN
    intro y hy
    rcases List.mem_cons.mp hy with rfl | hy
    · exact hxN
    · exact h2 y hy
  by_cases hx : x ∈ r.nodes
  · rw [add_node_of_mem hash hx]
    exact ⟨h1, h2, h3⟩
  · refine ⟨WF_add_node hash h1 hdvx, ?_, ?_⟩
    · rw [add_node_nodes_eq hash hx]
      intro y hy
      rcases List.mem_append.mp hy with hy | hy
      · exact h2 y hy
      · have hyx : y = x := by simpa using hy
        exact hyx ▸ hxN
    · rw [ring_length_add hash h1 hdvx hx, add_node_nodes_eq hash hx, h3]
      simp only [List.length_append, List.length_singleton]
      ring

theorem step_remove {hash : String → Nat} {r : Ring} {x : String}
    {N : List String} (hdvN : DistinctVKeys hash N) (hxN : x ∈ N)
    (h1 : WF hash r) (h2 : ∀ y ∈ r.nodes, y ∈ N)
    (h3 : r.ring.length = VIRTUAL_NODES * r.nodes.length) :
    WF hash (remove_node r x) ∧
    (∀ y ∈ (remove_node r x).nodes, y ∈ N) ∧
    (remove_node r x).ring.length
      = VIRTUAL_NODES * (remove_node r x).nodes.length := by
  have hdvx : DistinctVKeys hash (x :: r.nodes) := by
    apply DistinctVKeys_sub hdvN
    intro y hy
    rcases List.mem_cons.mp hy with rfl | hy
    · exact hxN
    · exact h2 y hy
  refine ⟨WF_remove_node h1, ?_, ?_⟩
  · by_cases hx : x ∈ r.nodes
    · rw [remove_node_nodes_eq hx]
      intro y hy
      exact h2 y ((h1.2.1.mem_erase_iff).mp hy).2
    · rw [remove_node_of_not_mem hx]
      exact h2
  · by_cases hx : x ∈ r.nodes
    · have hlr := ring_length_remove h1 hdvx hx
      rw [remove_node_nodes_eq hx, List.length_erase_of_mem hx]
      have hpos : 1 ≤ r.nodes.length :=
        List.length_pos.mpr (fun hnil => by rw [hnil] at hx; cases hx)
      simp only [VIRTUAL_NODES] at h3 hlr ⊢
      omega
    · rw [remove_node_of_not_mem hx]
      exact h3

theorem foldl_applyOp_invariant (hash : String → Nat) (N : List String)
    (hdvN : DistinctVKeys hash N) :
    ∀ ops : List RingOp, (∀ op ∈ ops, opNode op ∈ N) →
    ∀ r : Ring, WF hash r → (∀ x ∈ r.nodes, x ∈ N) →
      r.ring.length = VIRTUAL_NODES * r.nodes.length →
      WF hash (ops.foldl (applyOp hash) r) ∧
      (∀ x ∈ (ops.foldl (applyOp hash) r).nodes, x ∈ N) ∧
      (ops.foldl (applyOp hash) r).ring.length
        = VIRTUAL_NODES * (ops.foldl (applyOp hash) r).nodes.length := by
  intro ops
  induction ops with
  | nil =>
    intro _ r h1 h2 h3
    exact ⟨h1, h2, h3⟩
  | cons op t ih =>
    intro hops r h1 h2 h3
    rw [List.foldl_cons]
    have hopN : opNode op ∈ N := hops op (List.mem_cons_self op t)
    have hstep : WF hash (applyOp hash r op) ∧
        (∀ x ∈ (applyOp hash r op).nodes, x ∈ N) ∧
        (applyOp hash r op).ring.length
          = VIRTUAL_NODES * (applyOp hash r op).nodes.length := by
      cases op with
      | add x => exact step_add hash hdvN hopN h1 h2 h3
      | remove x => exact step_remove hdvN hopN h1 h2 h3
    exact ih (fun o ho => hops o (List.mem_cons_of_mem op ho))
      (applyOp hash r op) hstep.1 hstep.2.1 hstep.2.2

/-- C4: Ring structural invariant.  For every sequence of `add_node` /
`remove_node` calls from the empty ring, provided the digest is
collision-free on the virtual keys of the node ids the sequence mentions
(the SHA-256 property the spec calls practically guaranteed): the number of
ring positions is exactly `VIRTUAL_NODES` (= 3) times the number of members,
and every position in the slot map is owned by a member. -/
theorem C4_structural_invariant (hash : String → Nat) (ops : List RingOp)
    (hdv : DistinctVKeys hash (ops.map opNode)) :
    (runOps hash ops).ring.length
        = VIRTUAL_NODES * (runOps hash ops).nodes.length ∧
    ∀ p n, dictGet? (runOps hash ops).ring p = some n →
      n ∈ (runOps hash ops).nodes := by
  have h := foldl_applyOp_invariant hash (ops.map opNode) hdv ops
    (fun op ho => List.mem_map_of_mem opNode ho) Ring.empty (WF_empty hash)
    (by intro x hx; cases hx) (by simp [Ring.empty])
  refine ⟨h.2.2, ?_⟩
  intro p n hlook
  exact ((h.1.2.2 p n).mp hlook).1

/-- Witness for C4 at a concrete operation sequence. -/
theorem C4_structural_invariant_witness :
    DistinctVKeys hashW
      (([RingOp.add "a", RingOp.add "b", RingOp.remove "a"]).map opNode) ∧
    ((runOps hashW [RingOp.add "a", RingOp.add "b",
        RingOp.remove "a"]).ring.length
      = VIRTUAL_NODES * (runOps hashW [RingOp.add "a", RingOp.add "b",
        RingOp.remove "a"]).nodes.length ∧
     ∀ p n, dictGet? (runOps hashW [RingOp.add "a", RingOp.add "b",
        RingOp.remove "a"]).ring p = some n →
      n ∈ (runOps hashW [RingOp.add "a", RingOp.add "b",
        RingOp.remove "a"]).nodes) :=
  ⟨by decide, C4_structural_invariant hashW
    [RingOp.add "a", RingOp.add "b", RingOp.remove "a"] (by decide)⟩

end DKVS
